import Mathlib

/-!
# Singly linked list demonstrations: embedding and verification

The C sources `linked_list.c` and `linked_list_intersection.c` manipulate
`struct Node { int value; struct Node* next; }` cells through raw pointers.
Node identity matters (shared suffixes, in-place reversal), so the embedding
keeps an explicit memory: a list of cells indexed by address.  Every loop of
the source becomes a function recursing on a fuel counter that bounds the
number of evaluations of the loop condition; dereferencing `NULL` or a
released cell is an explicit `fault`.

The two byte-order functions, both called `swapEndian` in their sources, live in the
namespaces `Endian32` (`32bit_Endian_convertor.c`, on `uint32_t`) and `ShortEndian`
(`Short_Endian_convertor.c`, on `short`).
-/

namespace Endian32

/-- The function `swapEndian` of `32bit_Endian_convertor.c` on a `uint32_t` given by its
value; the two left shifts are reduced modulo `2 ^ 32` as `uint32_t` arithmetic does. -/
def swapEndian (value : Nat) : Nat :=
  ((value >>> 24) &&& 0x000000FF) |||
  ((value >>> 8) &&& 0x0000FF00) |||
  (((value <<< 8) % 2 ^ 32) &&& 0x00FF0000) |||
  (((value <<< 24) % 2 ^ 32) &&& 0xFF000000)

end Endian32

namespace ShortEndian

/-- Conversion of an `int` to `short`: reduction modulo `2 ^ 16` into the two's-complement
range from `-32768` to `32767`. -/
def toShort (x : Int) : Int := (x + 2 ^ 15) % 2 ^ 16 - 2 ^ 15

/-- The function `swapEndian` of `Short_Endian_convertor.c` on a `short` given by its value.
The operand is promoted to `int`; on a `short` operand neither shift leaves the range of
`int`, so both are the shifts of the integers (`>>` is the arithmetic shift), and `&`, `|`
act on two's-complement integers. -/
def swapEndian (value : Int) : Int :=
  toShort (Int.lor (value <<< (8 : Int)) (Int.land (value >>> (8 : Int)) 0x00FF))

end ShortEndian

namespace LinkedList

/-- A `struct Node*`: `none` is `NULL`, `some a` is the address `a`. -/
abbrev Ptr := Option Nat

/-- The C `struct Node`. -/
structure Node where
  value : Int
  next : Ptr
deriving DecidableEq

/-- Ways in which a run fails to produce a result. -/
inductive Err where
  | fault
  | timeout
deriving DecidableEq

/-- Memory: cell `a` is `some nd` when address `a` holds a live node and `none`
when it was released; addresses from `length` on were never handed out. -/
abbrev Mem := List (Option Node)

/-- Content of the live cell at address `a`, if any. -/
def read (m : Mem) (a : Nat) : Option Node :=
  match m[a]? with
  | some (some nd) => some nd
  | _ => none

/-- The call `malloc(sizeof(struct Node))`: a fresh address, content not yet meaningful.
The source does not test the result, so the allocation is taken to succeed; the address is
the first one never handed out, and released cells are not reused. -/
def malloc (m : Mem) : Mem × Nat :=
  (m ++ [some ⟨0, none⟩], m.length)

/-- The assignment `p->value = v`. -/
def storeValue (m : Mem) (a : Nat) (v : Int) : Except Err Mem :=
  match read m a with
  | none => .error .fault
  | some nd => .ok (m.set a (some ⟨v, nd.next⟩))

/-- The assignment `p->next = q`. -/
def storeNext (m : Mem) (a : Nat) (q : Ptr) : Except Err Mem :=
  match read m a with
  | none => .error .fault
  | some nd => .ok (m.set a (some ⟨nd.value, q⟩))

/-- The call `free(p)` on a non-null pointer. -/
def free (m : Mem) (a : Nat) : Except Err Mem :=
  match read m a with
  | none => .error .fault
  | some _ => .ok (m.set a none)

/-- The loop `while(curr->next != NULL) curr = curr->next;` of `insertEnd`. -/
def insertEndLoop (m : Mem) : Nat → Nat → Except Err Nat
  | 0, _ => .error .timeout
  | fuel + 1, curr =>
    match read m curr with
    | none => .error .fault
    | some nd =>
      match nd.next with
      | none => .ok curr
      | some nx => insertEndLoop m fuel nx

/-- The function `insertEnd(&head, value)`: returns the memory and the head afterwards. -/
def insertEnd (fuel : Nat) (m : Mem) (head : Ptr) (value : Int) : Except Err (Mem × Ptr) :=
  let (m0, node) := malloc m
  match storeValue m0 node value with
  | .error e => .error e
  | .ok m1 =>
    match storeNext m1 node none with
    | .error e => .error e
    | .ok m2 =>
      match head with
      | none => .ok (m2, some node)
      | some h =>
        match insertEndLoop m2 fuel h with
        | .error e => .error e
        | .ok curr =>
          match storeNext m2 curr (some node) with
          | .error e => .error e
          | .ok m3 => .ok (m3, head)

/-- The loop `while(curr != NULL && curr->value != value) { prev = curr; curr = curr->next; }`
of `removeNode`; returns the final `(prev, curr)`. -/
def removeNodeLoop (m : Mem) (value : Int) : Nat → Ptr → Ptr → Except Err (Ptr × Ptr)
  | 0, _, _ => .error .timeout
  | _ + 1, prev, none => .ok (prev, none)
  | fuel + 1, prev, some c =>
    match read m c with
    | none => .error .fault
    | some nd =>
      if nd.value ≠ value then removeNodeLoop m value fuel (some c) nd.next
      else .ok (prev, some c)

/-- The function `removeNode(&head, value)`. -/
def removeNode (fuel : Nat) (m : Mem) (head : Ptr) (value : Int) : Except Err (Mem × Ptr) :=
  match head with
  | none => .ok (m, head)
  | some c =>
    match read m c with
    | none => .error .fault
    | some nd =>
      if nd.value = value then
        match free m c with
        | .error e => .error e
        | .ok m1 => .ok (m1, nd.next)
      else
        match removeNodeLoop m value fuel none (some c) with
        | .error e => .error e
        | .ok (_, none) => .ok (m, head)
        | .ok (prev, some k) =>
          match read m k with
          | none => .error .fault
          | some kn =>
            match prev with
            | none => .error .fault
            | some p =>
              match storeNext m p kn.next with
              | .error e => .error e
              | .ok m1 =>
                match free m1 k with
                | .error e => .error e
                | .ok m2 => .ok (m2, head)

/-- The loop of `reverseList`; returns the memory and the final `prev`. -/
def reverseListLoop : Nat → Mem → Ptr → Ptr → Except Err (Mem × Ptr)
  | 0, _, _, _ => .error .timeout
  | _ + 1, m, prev, none => .ok (m, prev)
  | fuel + 1, m, prev, some c =>
    match read m c with
    | none => .error .fault
    | some nd =>
      match storeNext m c prev with
      | .error e => .error e
      | .ok m1 => reverseListLoop fuel m1 (some c) nd.next

/-- The function `reverseList(&head)`. -/
def reverseList (fuel : Nat) (m : Mem) (head : Ptr) : Except Err (Mem × Ptr) :=
  reverseListLoop fuel m none head

/-- The conversion `%d` of `printf`. -/
def fmtInt (v : Int) : String := toString v

/-- The loop of `printList`, appending to the text written so far. -/
def printListLoop (m : Mem) : Nat → Ptr → String → Except Err String
  | 0, _, _ => .error .timeout
  | _ + 1, none, out => .ok out
  | fuel + 1, some c, out =>
    match read m c with
    | none => .error .fault
    | some nd => printListLoop m fuel nd.next (out ++ (fmtInt nd.value ++ " -> "))

/-- The function `printList(head)`: the text written to standard output. -/
def printList (fuel : Nat) (m : Mem) (head : Ptr) : Except Err String :=
  match printListLoop m fuel head "" with
  | .error e => .error e
  | .ok out => .ok (out ++ "NULL\n")

/-- The function `printReversedList(head)`, appending to the text written so far;
the fuel bounds the recursion depth. -/
def printReversedList (m : Mem) : Nat → Ptr → String → Except Err String
  | 0, _, _ => .error .timeout
  | _ + 1, none, out => .ok out
  | fuel + 1, some c, out =>
    match read m c with
    | none => .error .fault
    | some nd =>
      match printReversedList m fuel nd.next out with
      | .error e => .error e
      | .ok out1 => .ok (out1 ++ (fmtInt nd.value ++ " -> "))

/-- The value of a C comparison: `1` when it holds, `0` otherwise. -/
def cBool (b : Bool) : Nat := if b then 1 else 0

/-- One assignment `cur = (cur == NULL) ? other : cur->next;`. -/
def advance (m : Mem) (other cur : Ptr) : Except Err Ptr :=
  match cur with
  | none => .ok other
  | some a =>
    match read m a with
    | none => .error .fault
    | some nd => .ok nd.next

/-- The loop `while(cur1 != cur2) { ... }` of `findIntersection`. -/
def findIntersectionLoop (m : Mem) (head1 head2 : Ptr) : Nat → Ptr → Ptr → Except Err Ptr
  | 0, _, _ => .error .timeout
  | fuel + 1, cur1, cur2 =>
    if cur1 ≠ cur2 then
      match advance m head2 cur1 with
      | .error e => .error e
      | .ok c1 =>
        match advance m head1 cur2 with
        | .error e => .error e
        | .ok c2 => findIntersectionLoop m head1 head2 fuel c1 c2
    else .ok cur1

/-- The function `findIntersection(head1, head2)`; the guard uses the bitwise `|`
of the source on the two comparison results. -/
def findIntersection (fuel : Nat) (m : Mem) (head1 head2 : Ptr) : Except Err Ptr :=
  if cBool (head1 == none) ||| cBool (head2 == none) ≠ 0 then .ok none
  else findIntersectionLoop m head1 head2 fuel head1 head2

/-- Well-formed list: from `p` the `next` links run through the cells `cs`
(address and value of each node, head first) and end in `NULL`. -/
def Rep (m : Mem) : Ptr → List (Nat × Int) → Prop
  | p, [] => p = none
  | p, c :: rest => p = some c.1 ∧ ∃ nx, read m c.1 = some ⟨c.2, nx⟩ ∧ Rep m nx rest

/-- Calling `insertEnd` once per element of a sequence, in order, as `main` does;
the state is the memory together with the `head` variable. -/
def insertAll (fuel : Nat) : List Int → Mem × Ptr → Except Err (Mem × Ptr)
  | [], s => .ok s
  | v :: vs, s =>
    match insertEnd fuel s.1 s.2 v with
    | .error e => .error e
    | .ok s1 => insertAll fuel vs s1

/-- Expected text for a value sequence: every value in decimal followed by `" -> "`,
then the marker `NULL` and a newline. -/
def render : List Int → String
  | [] => "NULL\n"
  | v :: vs => fmtInt v ++ " -> " ++ render vs

/-- Pointers to the nodes of a list of cells, in order. -/
def ptrs (cs : List (Nat × Int)) : List Ptr := cs.map (fun c => some c.1)

/-- Successive values of a cursor that walks the cells `A`, reaches `NULL`, is redirected to
a list with cells `B`, walks it and reaches `NULL` again. -/
def route (A B : List (Nat × Int)) : List Ptr := ptrs A ++ none :: (ptrs B ++ [none])

/-- Expected text without the marker line: every value in decimal followed by `" -> "`. -/
def renderItems : List Int → String
  | [] => ""
  | v :: vs => fmtInt v ++ " -> " ++ renderItems vs

/-- The loop of `findIntersection` with three counters added to its result: the number of
executions of the loop body, and for each cursor the number of those in which it was `NULL`
and hence was redirected to the head of the other list. -/
def findIntersectionCount (m : Mem) (head1 head2 : Ptr) :
    Nat → Ptr → Ptr → Except Err (Ptr × Nat × Nat × Nat)
  | 0, _, _ => .error .timeout
  | fuel + 1, cur1, cur2 =>
    if cur1 ≠ cur2 then
      match advance m head2 cur1 with
      | .error e => .error e
      | .ok c1 =>
        match advance m head1 cur2 with
        | .error e => .error e
        | .ok c2 =>
          match findIntersectionCount m head1 head2 fuel c1 c2 with
          | .error e => .error e
          | .ok (r, n, k1, k2) =>
            .ok (r, n + 1, k1 + cBool (cur1 == none), k2 + cBool (cur2 == none))
    else .ok (cur1, 0, 0, 0)

/-! ## Concrete memories used as instances -/

/-- The two lists built by `main` in `linked_list_intersection.c`: 5, 10, 15, 51, 33, 7 at
addresses 0 to 5 and 1, 2, 3 at addresses 6 to 8. -/
def demoMem : Mem :=
  [some ⟨5, some 1⟩, some ⟨10, some 2⟩, some ⟨15, some 3⟩, some ⟨51, some 4⟩,
    some ⟨33, some 5⟩, some ⟨7, none⟩, some ⟨1, some 7⟩, some ⟨2, some 8⟩, some ⟨3, none⟩]

/-- The same memory after the splice `head2->next->next->next = head->next->next`. -/
def splicedMem : Mem :=
  [some ⟨5, some 1⟩, some ⟨10, some 2⟩, some ⟨15, some 3⟩, some ⟨51, some 4⟩,
    some ⟨33, some 5⟩, some ⟨7, none⟩, some ⟨1, some 7⟩, some ⟨2, some 8⟩, some ⟨3, some 2⟩]

/-- A four-node list 5, 15, 10, 15 holding the value 15 twice. -/
def dupMem : Mem :=
  [some ⟨5, some 1⟩, some ⟨15, some 2⟩, some ⟨10, some 3⟩, some ⟨15, none⟩]

/-! ## Lists without repetition -/

theorem nodup_index_ne {α : Type} {l : List α} (h : l.Nodup) {i j : Nat} (hij : i ≠ j)
    (hi : i < l.length) (hj : j < l.length) : l[i]? ≠ l[j]? := by
  rcases Nat.lt_or_gt_of_ne hij with h1 | h1
  · exact List.nodup_iff_getElem?_ne_getElem?.1 h i j h1 hj
  · exact fun e => List.nodup_iff_getElem?_ne_getElem?.1 h j i h1 hi e.symm

theorem swap_index {α : Type} (a c b : List α) (t : Nat)
    (ht : t < a.length + c.length + b.length) :
    (b ++ c ++ a)[t]? =
      (a ++ c ++ b)[if t < b.length then a.length + c.length + t
        else if t < b.length + c.length then a.length + (t - b.length)
        else t - (b.length + c.length)]? := by
  split_ifs with h1 h2
  · rw [List.append_assoc, List.getElem?_append_left h1,
      List.getElem?_append_right (by simp)]
    congr 1; simp
  · rw [List.getElem?_append_left (by simp; omega), List.getElem?_append_right (by omega),
      List.getElem?_append_left (by simp; omega), List.getElem?_append_right (by omega)]
    congr 1; omega
  · have h3 : t - (b.length + c.length) < a.length := by omega
    rw [List.getElem?_append_right (by simp; omega), List.append_assoc,
      List.getElem?_append_left h3]
    congr 1; simp

theorem swap_index_ne {α : Type} {a c b : List α} (hnd : (a ++ c ++ b).Nodup)
    (hc : c ≠ []) {t : Nat} (ht : t < a.length + c.length + b.length)
    (hab : a.length ≠ b.length ∨ t < a.length) :
    (a ++ c ++ b)[t]? ≠ (b ++ c ++ a)[t]? := by
  have hcl : 0 < c.length := List.length_pos.2 hc
  rw [swap_index a c b t ht]
  apply nodup_index_ne hnd
  · split_ifs <;> omega
  · simp; omega
  · simp; split_ifs <;> omega

theorem meet_early {α : Type} {a c b : List α} (tx ty : List α)
    (hnd : (a ++ c ++ b).Nodup) (hc : c ≠ []) (hlen : a.length = b.length) :
    (∀ t, t < a.length → (a ++ c ++ b ++ tx)[t]? ≠ (b ++ c ++ a ++ ty)[t]?) ∧
      (a ++ c ++ b ++ tx)[a.length]? = c.head? ∧ (b ++ c ++ a ++ ty)[a.length]? = c.head? := by
  have hcl : 0 < c.length := List.length_pos.2 hc
  refine ⟨fun t ht => ?_, ?_, ?_⟩
  · have h1 : t < (a ++ c ++ b).length := by simp; omega
    have h2 : t < (b ++ c ++ a).length := by simp; omega
    rw [List.getElem?_append_left h1, List.getElem?_append_left h2]
    exact swap_index_ne hnd hc (by omega) (Or.inr ht)
  · have h1 : a.length < (a ++ c).length := by simp; omega
    rw [List.append_assoc (a ++ c), List.getElem?_append_left h1,
      List.getElem?_append_right (Nat.le_refl _), Nat.sub_self]
    cases c <;> simp
  · have h1 : a.length < (b ++ c).length := by simp; omega
    rw [List.append_assoc (b ++ c), List.getElem?_append_left h1,
      List.getElem?_append_right (Nat.le_of_eq hlen.symm), hlen, Nat.sub_self]
    cases c <;> simp

theorem meet_late {α : Type} {a c b : List α}
    (hnd : (a ++ c ++ b).Nodup) (hc : c ≠ []) (hlen : a.length ≠ b.length) :
    (∀ t, t < a.length + c.length + b.length →
        (a ++ c ++ b ++ c)[t]? ≠ (b ++ c ++ a ++ c)[t]?) ∧
      (a ++ c ++ b ++ c)[a.length + c.length + b.length]? = c.head? ∧
      (b ++ c ++ a ++ c)[a.length + c.length + b.length]? = c.head? := by
  refine ⟨fun t ht => ?_, ?_, ?_⟩
  · have h1 : t < (a ++ c ++ b).length := by simp; omega
    have h2 : t < (b ++ c ++ a).length := by simp; omega
    rw [List.getElem?_append_left h1, List.getElem?_append_left h2]
    exact swap_index_ne hnd hc ht (Or.inl hlen)
  · have h1 : (a ++ c ++ b).length = a.length + c.length + b.length := by simp; omega
    rw [List.getElem?_append_right (Nat.le_of_eq h1), h1, Nat.sub_self]
    cases c <;> simp
  · have h1 : (b ++ c ++ a).length = a.length + c.length + b.length := by simp; omega
    rw [List.getElem?_append_right (Nat.le_of_eq h1), h1, Nat.sub_self]
    cases c <;> simp

/-! ## Memory lemmas -/

theorem read_lt {m : Mem} {a : Nat} {nd : Node} (h : read m a = some nd) : a < m.length := by
  by_contra hlt
  have : m[a]? = none := List.getElem?_eq_none (Nat.le_of_not_lt hlt)
  simp [read, this] at h

theorem read_set_same {m : Mem} {a : Nat} (x : Option Node) (h : a < m.length) :
    read (m.set a x) a = x := by
  unfold read
  rw [List.getElem?_set]
  simp [h]
  cases x <;> rfl

theorem read_set_ne {m : Mem} {a b : Nat} (x : Option Node) (h : a ≠ b) :
    read (m.set a x) b = read m b := by
  unfold read
  rw [List.getElem?_set]
  simp [h]

theorem read_append_left {m : Mem} {a : Nat} (l : Mem) (h : a < m.length) :
    read (m ++ l) a = read m a := by
  unfold read
  rw [List.getElem?_append_left h]

theorem read_append_length (m : Mem) (x : Option Node) :
    read (m ++ [x]) m.length = x := by
  unfold read
  rw [List.getElem?_append_right (Nat.le_refl _)]
  simp
  cases x <;> rfl

/-! ## Well-formed lists -/

theorem Rep_nil {m : Mem} {p : Ptr} : Rep m p [] ↔ p = none := Iff.rfl

theorem Rep_cons {m : Mem} {p : Ptr} {c : Nat × Int} {rest : List (Nat × Int)} :
    Rep m p (c :: rest) ↔ p = some c.1 ∧ ∃ nx, read m c.1 = some ⟨c.2, nx⟩ ∧ Rep m nx rest :=
  Iff.rfl

/-- A well-formed list determines its cells. -/
theorem Rep_det {m : Mem} : ∀ {cs cs' : List (Nat × Int)} {p : Ptr},
    Rep m p cs → Rep m p cs' → cs = cs'
  | [], [], _, _, _ => rfl
  | [], _ :: _, _, h, h' => by
    rw [Rep_nil] at h; rw [Rep_cons] at h'
    rw [h] at h'; exact absurd h'.1 (by simp)
  | _ :: _, [], _, h, h' => by
    rw [Rep_nil] at h'; rw [Rep_cons] at h
    rw [h'] at h; exact absurd h.1 (by simp)
  | c :: rest, c' :: rest', _, h, h' => by
    obtain ⟨hp, nx, hr, hrest⟩ := h
    obtain ⟨hp', nx', hr', hrest'⟩ := h'
    have h1 : c.1 = c'.1 := by rw [hp] at hp'; exact Option.some.inj hp'
    rw [← h1, hr] at hr'
    have h2 : c.2 = c'.2 := by injection hr' with h3; injection h3
    have h3 : nx = nx' := by injection hr' with h3; injection h3
    subst h3
    have := Rep_det hrest hrest'
    rw [this, Prod.ext h1 h2]

/-- Every suffix of a well-formed list is a well-formed list. -/
theorem Rep_suffix {m : Mem} : ∀ (xs : List (Nat × Int)) {ys : List (Nat × Int)} {p : Ptr},
    Rep m p (xs ++ ys) → ∃ q, Rep m q ys
  | [], _, p, h => ⟨p, h⟩
  | _ :: xs, _, _, h => by
    obtain ⟨_, nx, _, hrest⟩ := h
    exact Rep_suffix xs hrest

/-- Every node of a well-formed list is live and holds the recorded value. -/
theorem Rep_read {m : Mem} : ∀ {cs : List (Nat × Int)} {p : Ptr} {c : Nat × Int},
    Rep m p cs → c ∈ cs → ∃ nx, read m c.1 = some ⟨c.2, nx⟩
  | [], _, _, _, hc => by simp at hc
  | c' :: rest, _, c, h, hc => by
    obtain ⟨_, nx, hr, hrest⟩ := h
    rcases List.mem_cons.1 hc with rfl | hc
    · exact ⟨nx, hr⟩
    · exact Rep_read hrest hc

/-- A chain that ends in `NULL` visits no node twice. -/
theorem Rep_nodup {m : Mem} : ∀ {cs : List (Nat × Int)} {p : Ptr},
    Rep m p cs → (cs.map Prod.fst).Nodup
  | [], _, _ => by simp
  | c :: rest, _, h => by
    obtain ⟨_, nx, hr, hrest⟩ := h
    rw [List.map_cons, List.nodup_cons]
    refine ⟨?_, Rep_nodup hrest⟩
    intro hmem
    obtain ⟨c', hc', hfst⟩ := List.mem_map.1 hmem
    obtain ⟨r1, r2, hsplit⟩ := List.append_of_mem hc'
    rw [hsplit] at hrest
    obtain ⟨q, hq⟩ := Rep_suffix r1 hrest
    obtain ⟨_, nx', hr', hr2⟩ := hq
    rw [hfst, hr] at hr'
    have h3 : nx = nx' := by injection hr' with h3; injection h3
    subst h3
    have := Rep_det hrest hr2
    have hlen := congrArg List.length this
    simp at hlen
    omega

/-- A well-formed list only depends on the cells of its own nodes. -/
theorem Rep_congr {m m' : Mem} : ∀ {cs : List (Nat × Int)} {p : Ptr},
    Rep m p cs → (∀ a ∈ cs.map Prod.fst, read m' a = read m a) → Rep m' p cs
  | [], _, h, _ => h
  | c :: rest, _, h, hfr => by
    obtain ⟨hp, nx, hr, hrest⟩ := h
    refine ⟨hp, nx, ?_, Rep_congr hrest ?_⟩
    · rw [hfr c.1 (by simp), hr]
    · intro a ha
      exact hfr a (by simp [List.mem_map] at ha ⊢; right; exact ha)

theorem Rep_addr_lt {m : Mem} {cs : List (Nat × Int)} {p : Ptr} (h : Rep m p cs)
    {a : Nat} (ha : a ∈ cs.map Prod.fst) : a < m.length := by
  obtain ⟨c, hc, rfl⟩ := List.mem_map.1 ha
  obtain ⟨nx, hr⟩ := Rep_read h hc
  exact read_lt hr

/-! ## insertEnd -/

theorem set_length_append (m : Mem) (x y : Option Node) :
    (m ++ [x]).set m.length y = m ++ [y] := by
  induction m with
  | nil => rfl
  | cons c m ih => simp [List.set, ih]

/-- The allocation and initialisation at the start of `insertEnd`, in closed form. -/
theorem insertEnd_eq (fuel : Nat) (m : Mem) (head : Ptr) (v : Int) :
    insertEnd fuel m head v =
      match head with
      | none => .ok (m ++ [some ⟨v, none⟩], some m.length)
      | some h =>
        match insertEndLoop (m ++ [some ⟨v, none⟩]) fuel h with
        | .error e => .error e
        | .ok curr =>
          match storeNext (m ++ [some ⟨v, none⟩]) curr (some m.length) with
          | .error e => .error e
          | .ok m3 => .ok (m3, head) := by
  simp only [insertEnd, malloc, storeValue, storeNext, read_append_length, set_length_append]

theorem insertEndLoop_spec {m : Mem} : ∀ (cs : List (Nat × Int)) {l : Nat × Int} {h : Nat}
    (fuel : Nat), Rep m (some h) (cs ++ [l]) → cs.length + 1 ≤ fuel →
    insertEndLoop m fuel h = .ok l.1
  | [], l, h, fuel, hrep, hf => by
    obtain ⟨hp, nx, hr, hrest⟩ := hrep
    obtain ⟨k, rfl⟩ : ∃ k, fuel = k + 1 := ⟨fuel - 1, by simp at hf; omega⟩
    have : h = l.1 := Option.some.inj hp
    subst this
    rw [Rep_nil] at hrest
    subst hrest
    simp [insertEndLoop, hr]
  | c :: cs, l, h, fuel, hrep, hf => by
    obtain ⟨hp, nx, hr, hrest⟩ := hrep
    obtain ⟨k, rfl⟩ : ∃ k, fuel = k + 1 := ⟨fuel - 1, by simp at hf; omega⟩
    have : h = c.1 := Option.some.inj hp
    subst this
    cases nx with
    | none =>
      cases cs <;> exact absurd hrest.1 (by simp)
    | some n =>
      have ih := insertEndLoop_spec cs k hrest (by simp at hf; omega)
      simp [insertEndLoop, hr, ih]

/-- Linking the last node of a well-formed list to a fresh one-node list. -/
theorem Rep_link_last {m : Mem} {a : Nat} {v : Int} (ha : read m a = some ⟨v, none⟩) :
    ∀ (cs : List (Nat × Int)) {l : Nat × Int} {p : Ptr}, Rep m p (cs ++ [l]) →
    a ∉ (cs ++ [l]).map Prod.fst →
    Rep (m.set l.1 (some ⟨l.2, some a⟩)) p (cs ++ [l] ++ [(a, v)])
  | [], l, p, hrep, hna => by
    obtain ⟨hp, nx, hr, _⟩ := hrep
    have hne : l.1 ≠ a := by
      intro h; apply hna; simp [h]
    refine ⟨hp, some a, ?_, rfl, none, ?_, rfl⟩
    · exact read_set_same _ (read_lt hr)
    · show read _ a = _
      rw [read_set_ne _ hne, ha]
  | c :: cs, l, p, hrep, hna => by
    have hnd := Rep_nodup hrep
    obtain ⟨hp, nx, hr, hrest⟩ := hrep
    have hne : l.1 ≠ c.1 := by
      intro h
      simp only [List.cons_append, List.map_cons, List.nodup_cons] at hnd
      apply hnd.1
      rw [← h]; simp
    refine ⟨hp, nx, ?_, ?_⟩
    · rw [read_set_ne _ hne, hr]
    · apply Rep_link_last ha cs hrest
      intro h; apply hna
      simp only [List.cons_append, List.map_cons]
      exact List.mem_cons_of_mem _ h

theorem Rep_head_some {m : Mem} {p : Ptr} {cs : List (Nat × Int)} (h : Rep m p cs)
    (hne : cs ≠ []) : ∃ a, p = some a := by
  cases cs with
  | nil => exact absurd rfl hne
  | cons c rest => exact ⟨c.1, h.1⟩

theorem insertEnd_spec {m : Mem} {head : Ptr} {cs : List (Nat × Int)} (v : Int) (fuel : Nat)
    (h : Rep m head cs) (hf : cs.length ≤ fuel) :
    ∃ m', insertEnd fuel m head v = .ok (m', if cs = [] then some m.length else head) ∧
      Rep m' (if cs = [] then some m.length else head) (cs ++ [(m.length, v)]) := by
  rw [insertEnd_eq]
  rcases List.eq_nil_or_concat cs with rfl | ⟨cs', l, hcs⟩
  · rw [Rep_nil] at h
    subst h
    exact ⟨_, rfl, rfl, none, read_append_length _ _, rfl⟩
  · rw [List.concat_eq_append] at hcs
    subst hcs
    have hne : cs' ++ [l] ≠ [] := by simp
    obtain ⟨a, rfl⟩ := Rep_head_some h hne
    have h1 : Rep (m ++ [some ⟨v, none⟩]) (some a) (cs' ++ [l]) :=
      Rep_congr h (fun b hb => read_append_left _ (Rep_addr_lt h hb))
    have hloop := insertEndLoop_spec cs' fuel h1 (by simpa using hf)
    obtain ⟨nx, hl⟩ := Rep_read h1 (c := l) (by simp)
    have hfresh : m.length ∉ (cs' ++ [l]).map Prod.fst :=
      fun hmem => Nat.lt_irrefl _ (Rep_addr_lt h hmem)
    have hlink := Rep_link_last (read_append_length m (some ⟨v, none⟩)) cs' h1 hfresh
    simp only [hloop, storeNext, hl, if_neg hne]
    exact ⟨_, rfl, hlink⟩

theorem insertAll_spec : ∀ (S : List Int) {m : Mem} {head : Ptr} {cs : List (Nat × Int)}
    (fuel : Nat), Rep m head cs → cs.length + S.length ≤ fuel →
    ∃ m' head' cs', insertAll fuel S (m, head) = .ok (m', head') ∧
      Rep m' head' (cs ++ cs') ∧ cs'.map Prod.snd = S
  | [], m, head, cs, _, h, _ => ⟨m, head, [], rfl, by simpa using h, rfl⟩
  | v :: S, m, head, cs, fuel, h, hf => by
    obtain ⟨m1, h1, hrep1⟩ := insertEnd_spec v fuel h (by simp at hf; omega)
    obtain ⟨m', head', cs', h2, hrep2, hS⟩ :=
      insertAll_spec S fuel hrep1 (by simp at hf ⊢; omega)
    refine ⟨m', head', (m.length, v) :: cs', ?_, ?_, ?_⟩
    · simp only [insertAll, h1, h2]
    · simpa using hrep2
    · simp [hS]

/-! ## printList -/

theorem printListLoop_spec {m : Mem} : ∀ {cs : List (Nat × Int)} {p : Ptr} (fuel : Nat)
    (out : String), Rep m p cs → cs.length + 1 ≤ fuel →
    ∃ out', printListLoop m fuel p out = .ok out' ∧
      out' ++ "NULL\n" = out ++ render (cs.map Prod.snd)
  | [], p, fuel, out, h, hf => by
    obtain ⟨k, rfl⟩ : ∃ k, fuel = k + 1 := ⟨fuel - 1, by omega⟩
    rw [Rep_nil] at h
    subst h
    exact ⟨out, rfl, rfl⟩
  | c :: rest, p, fuel, out, h, hf => by
    obtain ⟨k, rfl⟩ : ∃ k, fuel = k + 1 := ⟨fuel - 1, by omega⟩
    obtain ⟨hp, nx, hr, hrest⟩ := h
    subst hp
    obtain ⟨out', h1, h2⟩ := printListLoop_spec k (out ++ (fmtInt c.2 ++ " -> ")) hrest
      (by simp at hf; omega)
    refine ⟨out', ?_, ?_⟩
    · simp only [printListLoop, hr, h1]
    · rw [h2, List.map_cons, render, String.append_assoc]

theorem printList_spec {m : Mem} {cs : List (Nat × Int)} {p : Ptr} (fuel : Nat)
    (h : Rep m p cs) (hf : cs.length + 1 ≤ fuel) :
    printList fuel m p = .ok (render (cs.map Prod.snd)) := by
  obtain ⟨out', h1, h2⟩ := printListLoop_spec fuel "" h hf
  simp only [printList, h1, h2, String.empty_append]

/-! ## findIntersection -/

theorem Rep_head {m : Mem} {p : Ptr} {cs : List (Nat × Int)} (h : Rep m p cs) :
    p = cs.head?.map Prod.fst := by
  cases cs with
  | nil => exact h
  | cons c rest => exact h.1

/-- A cursor started at the head of a well-formed list takes the nodes in order, then `NULL`,
then whatever follows a redirected `NULL`. -/
theorem Rep_walk {m : Mem} (other : Ptr) (tl : List Ptr)
    (htl : List.Chain' (fun x y => advance m other x = .ok y) (none :: tl)) :
    ∀ {cs : List (Nat × Int)} {p : Ptr}, Rep m p cs →
      List.Chain' (fun x y => advance m other x = .ok y) (ptrs cs ++ none :: tl) ∧
      (ptrs cs ++ none :: tl).head? = some p
  | [], p, h => by
    rw [Rep_nil] at h
    subst h
    exact ⟨htl, rfl⟩
  | c :: rest, p, h => by
    obtain ⟨hp, nx, hr, hrest⟩ := h
    obtain ⟨ih1, ih2⟩ := Rep_walk other tl htl hrest
    subst hp
    refine ⟨?_, rfl⟩
    show List.Chain' _ (some c.1 :: (ptrs rest ++ none :: tl))
    rw [List.chain'_cons']
    refine ⟨?_, ih1⟩
    intro y hy
    rw [ih2] at hy
    cases hy
    simp [advance, hr]

theorem route_walk {m : Mem} {head1 head2 : Ptr} {A B : List (Nat × Int)}
    (hA : Rep m head1 A) (hB : Rep m head2 B) :
    List.Chain' (fun x y => advance m head2 x = .ok y) (route A B) ∧
      (route A B).head? = some head1 := by
  apply Rep_walk head2 _ _ hA
  obtain ⟨h1, h2⟩ := Rep_walk (m := m) head2 [] (List.chain'_singleton _) hB
  rw [List.chain'_cons']
  refine ⟨?_, h1⟩
  intro y hy
  rw [h2] at hy
  cases hy
  rfl

/-- The loop follows two cursor routes in lockstep and stops at the first index where they
agree. -/
theorem findIntersectionLoop_run {m : Mem} {head1 head2 : Ptr} {r : Ptr} :
    ∀ (n : Nat) (x y : Ptr) (X Y : List Ptr) (fuel : Nat),
      List.Chain' (fun x y => advance m head2 x = .ok y) (x :: X) →
      List.Chain' (fun x y => advance m head1 x = .ok y) (y :: Y) →
      (∀ t, t < n → (x :: X)[t]? ≠ (y :: Y)[t]?) →
      (x :: X)[n]? = some r → (y :: Y)[n]? = some r → n + 1 ≤ fuel →
      findIntersectionLoop m head1 head2 fuel x y = .ok r
  | 0, x, y, X, Y, fuel, _, _, _, hx, hy, hf => by
    obtain ⟨k, rfl⟩ : ∃ k, fuel = k + 1 := ⟨fuel - 1, by omega⟩
    simp at hx hy
    subst hx; subst hy
    simp [findIntersectionLoop]
  | n + 1, x, y, X, Y, fuel, hX, hY, hne, hx, hy, hf => by
    obtain ⟨k, rfl⟩ : ∃ k, fuel = k + 1 := ⟨fuel - 1, by omega⟩
    have h0 : x ≠ y := by
      have := hne 0 (Nat.succ_pos _)
      simpa using this
    cases X with
    | nil => simp at hx
    | cons x' X' =>
      cases Y with
      | nil => simp at hy
      | cons y' Y' =>
        rw [List.chain'_cons] at hX hY
        have ih := findIntersectionLoop_run n x' y' X' Y' k hX.2 hY.2
          (fun t ht => by simpa using hne (t + 1) (by omega))
          (by simpa using hx) (by simpa using hy) (by omega)
        simp [findIntersectionLoop, h0, hX.1, hY.1, ih]

theorem ptrs_append (xs ys : List (Nat × Int)) : ptrs (xs ++ ys) = ptrs xs ++ ptrs ys := by
  simp [ptrs]

theorem ptrs_eq_map (cs : List (Nat × Int)) : ptrs cs = (cs.map Prod.fst).map some := by
  simp [ptrs]

theorem length_ptrs (cs : List (Nat × Int)) : (ptrs cs).length = cs.length := by
  simp [ptrs]

theorem route_shared (pa pb s : List (Nat × Int)) :
    route (pa ++ s) (pb ++ s) =
      ptrs pa ++ (ptrs s ++ [none]) ++ ptrs pb ++ (ptrs s ++ [none]) := by
  simp [route, ptrs_append]

theorem nodup_route {pa pb s : List (Nat × Int)} (hA : ((pa ++ s).map Prod.fst).Nodup)
    (hB : ((pb ++ s).map Prod.fst).Nodup)
    (hd : ∀ a ∈ pa.map Prod.fst, a ∉ pb.map Prod.fst) :
    (ptrs pa ++ (ptrs s ++ [none]) ++ ptrs pb).Nodup := by
  have h1 : ((pa ++ s ++ pb).map Prod.fst).Nodup := by
    rw [List.map_append, List.nodup_append]
    rw [List.map_append, List.nodup_append] at hB
    refine ⟨hA, hB.1, ?_⟩
    intro x hx hx'
    rw [List.map_append, List.mem_append] at hx
    rcases hx with hx | hx
    · exact hd x hx hx'
    · exact hB.2.2 hx' hx
  have h2 : (ptrs pa ++ (ptrs s ++ [none]) ++ ptrs pb).Perm (none :: ptrs (pa ++ s ++ pb)) := by
    have : ptrs pa ++ (ptrs s ++ [none]) ++ ptrs pb = (ptrs pa ++ ptrs s) ++ none :: ptrs pb := by
      simp
    rw [this, ptrs_append, ptrs_append]
    exact List.perm_middle
  rw [h2.nodup_iff, List.nodup_cons, ptrs_eq_map]
  refine ⟨by simp, h1.map (Option.some_injective _)⟩

theorem head_ptrs_none (s : List (Nat × Int)) :
    (ptrs s ++ [none]).head? = some (s.head?.map Prod.fst) := by
  cases s <;> simp [ptrs]

/-- Two well-formed lists `pa ++ s` and `pb ++ s` whose prefixes share no node: the result is
the head of the common part `s` (`NULL` when `s` is empty). -/
theorem findIntersection_spec {m : Mem} {head1 head2 : Ptr} {pa pb s : List (Nat × Int)}
    (hA : Rep m head1 (pa ++ s)) (hB : Rep m head2 (pb ++ s))
    (hd : ∀ a ∈ pa.map Prod.fst, a ∉ pb.map Prod.fst) (fuel : Nat)
    (hf : pa.length + pb.length + s.length + 2 ≤ fuel) :
    findIntersection fuel m head1 head2 = .ok (s.head?.map Prod.fst) := by
  have e1 := Rep_head hA
  have e2 := Rep_head hB
  cases head1 with
  | none =>
    have hs : s = [] := by
      cases pa <;> cases s <;> simp at e1 ⊢
    subst hs
    cases head2 <;> simp [findIntersection, cBool]
  | some h1 =>
    cases head2 with
    | none =>
      have hs : s = [] := by
        cases pb <;> cases s <;> simp at e2 ⊢
      subst hs
      simp [findIntersection, cBool]
    | some h2 =>
      obtain ⟨cX, hX⟩ := route_walk hA hB
      obtain ⟨cY, hY⟩ := route_walk hB hA
      rw [route_shared] at cX hX
      rw [route_shared] at cY hY
      obtain ⟨X, eX⟩ : ∃ X, ptrs pa ++ (ptrs s ++ [none]) ++ ptrs pb ++ (ptrs s ++ [none]) =
          some h1 :: X := by
        cases hl : ptrs pa ++ (ptrs s ++ [none]) ++ ptrs pb ++ (ptrs s ++ [none]) with
        | nil => rw [hl] at hX; simp at hX
        | cons x X => rw [hl] at hX; simp at hX; exact ⟨X, by rw [hX]⟩
      obtain ⟨Y, eY⟩ : ∃ Y, ptrs pb ++ (ptrs s ++ [none]) ++ ptrs pa ++ (ptrs s ++ [none]) =
          some h2 :: Y := by
        cases hl : ptrs pb ++ (ptrs s ++ [none]) ++ ptrs pa ++ (ptrs s ++ [none]) with
        | nil => rw [hl] at hY; simp at hY
        | cons y Y => rw [hl] at hY; simp at hY; exact ⟨Y, by rw [hY]⟩
      have hnd := nodup_route (Rep_nodup hA) (Rep_nodup hB) hd
      have hc : ptrs s ++ [none] ≠ [] := by simp
      have hguard : findIntersection fuel m (some h1) (some h2) =
          findIntersectionLoop m (some h1) (some h2) fuel (some h1) (some h2) := by
        simp [findIntersection, cBool]
      rw [hguard]
      by_cases hlen : pa.length = pb.length
      · have hl : (ptrs pa).length = (ptrs pb).length := by simpa [length_ptrs] using hlen
        obtain ⟨g1, g2, g3⟩ := meet_early (ptrs s ++ [none]) (ptrs s ++ [none])
          hnd hc hl
        rw [eX, eY] at g1
        rw [eX, head_ptrs_none] at g2
        rw [eY, head_ptrs_none] at g3
        exact findIntersectionLoop_run _ (some h1) (some h2) X Y fuel (eX ▸ cX) (eY ▸ cY)
          g1 g2 g3 (by simp [length_ptrs]; omega)
      · have hl : (ptrs pa).length ≠ (ptrs pb).length := by simpa [length_ptrs] using hlen
        obtain ⟨g1, g2, g3⟩ := meet_late hnd hc hl
        rw [eX, eY] at g1
        rw [eX, head_ptrs_none] at g2
        rw [eY, head_ptrs_none] at g3
        exact findIntersectionLoop_run _ (some h1) (some h2) X Y fuel (eX ▸ cX) (eY ▸ cY)
          g1 g2 g3 (by simp [length_ptrs]; omega)

/-! ## removeNode -/

/-- The search loop stops at the first node holding `v`, with `prev` at its predecessor. -/
theorem removeNodeLoop_found {m : Mem} {v : Int} {a : Nat} {ys : List (Nat × Int)} :
    ∀ (xs : List (Nat × Int)) {p : Ptr} (prev : Ptr) (fuel : Nat),
      Rep m p (xs ++ (a, v) :: ys) → v ∉ xs.map Prod.snd → xs.length + 1 ≤ fuel →
      removeNodeLoop m v fuel prev p =
        .ok (match xs.getLast? with
          | some l => some l.1
          | none => prev, some a)
  | [], p, prev, fuel, h, _, hf => by
    obtain ⟨k, rfl⟩ : ∃ k, fuel = k + 1 := ⟨fuel - 1, by omega⟩
    obtain ⟨hp, nx, hr, _⟩ := h
    subst hp
    simp [removeNodeLoop, hr]
  | c :: xs, p, prev, fuel, h, hv, hf => by
    obtain ⟨k, rfl⟩ : ∃ k, fuel = k + 1 := ⟨fuel - 1, by omega⟩
    obtain ⟨hp, nx, hr, hrest⟩ := h
    subst hp
    have hc : c.2 ≠ v := by
      intro e; apply hv; simp [← e]
    have ih := removeNodeLoop_found xs (some c.1) k hrest
      (fun hmem => hv (by simp at hmem ⊢; right; exact hmem)) (by simp at hf; omega)
    simp only [removeNodeLoop, hr, ne_eq, hc, not_false_eq_true, if_true, ih]
    cases xs with
    | nil => rfl
    | cons d xs =>
      rw [List.getLast?_cons_cons, List.getLast?_eq_getLast _ (List.cons_ne_nil _ _)]

/-- The search loop runs off the end of a list that does not hold `v`. -/
theorem removeNodeLoop_absent {m : Mem} {v : Int} :
    ∀ (cs : List (Nat × Int)) {p : Ptr} (prev : Ptr) (fuel : Nat),
      Rep m p cs → v ∉ cs.map Prod.snd → cs.length + 1 ≤ fuel →
      ∃ prev', removeNodeLoop m v fuel prev p = .ok (prev', none)
  | [], p, prev, fuel, h, _, hf => by
    obtain ⟨k, rfl⟩ : ∃ k, fuel = k + 1 := ⟨fuel - 1, by omega⟩
    rw [Rep_nil] at h
    subst h
    exact ⟨prev, rfl⟩
  | c :: cs, p, prev, fuel, h, hv, hf => by
    obtain ⟨k, rfl⟩ : ∃ k, fuel = k + 1 := ⟨fuel - 1, by omega⟩
    obtain ⟨hp, nx, hr, hrest⟩ := h
    subst hp
    have hc : c.2 ≠ v := by
      intro e; apply hv; simp [← e]
    obtain ⟨prev', ih⟩ := removeNodeLoop_absent cs (some c.1) k hrest
      (fun hmem => hv (by simp at hmem ⊢; right; exact hmem)) (by simp at hf; omega)
    exact ⟨prev', by simp only [removeNodeLoop, hr, ne_eq, hc, not_false_eq_true, if_true, ih]⟩

/-- Removing a value that does not occur changes neither the memory nor the head. -/
theorem removeNode_absent_spec {m : Mem} {head : Ptr} {cs : List (Nat × Int)} {v : Int}
    (fuel : Nat) (h : Rep m head cs) (hv : v ∉ cs.map Prod.snd) (hf : cs.length + 1 ≤ fuel) :
    removeNode fuel m head v = .ok (m, head) := by
  cases cs with
  | nil =>
    rw [Rep_nil] at h
    subst h
    rfl
  | cons c cs =>
    obtain ⟨prev', hloop⟩ := removeNodeLoop_absent (c :: cs) none fuel h hv hf
    obtain ⟨hp, nx, hr, _⟩ := h
    subst hp
    have hc : c.2 ≠ v := by
      intro e; apply hv; simp [← e]
    simp only [removeNode, hr, hc, if_false, hloop]

theorem Rep_first {m : Mem} {p : Ptr} {xs rest : List (Nat × Int)} (h : Rep m p (xs ++ rest))
    (hne : xs ≠ []) : ∃ c nx, c ∈ xs ∧ p = some c.1 ∧ read m c.1 = some ⟨c.2, nx⟩ := by
  cases xs with
  | nil => exact absurd rfl hne
  | cons c xs =>
    obtain ⟨hp, nx, hr, _⟩ := h
    exact ⟨c, nx, by simp, hp, hr⟩

/-- Bypassing the node after `l` and releasing it. -/
theorem Rep_unlink {m : Mem} {a : Nat} {v : Int} {nxa : Ptr} {ys : List (Nat × Int)}
    (ha : read m a = some ⟨v, nxa⟩) :
    ∀ (pre : List (Nat × Int)) {l : Nat × Int} {p : Ptr},
      Rep m p (pre ++ l :: (a, v) :: ys) →
      Rep ((m.set l.1 (some ⟨l.2, nxa⟩)).set a none) p (pre ++ l :: ys)
  | [], l, p, h => by
    have hnd := Rep_nodup h
    obtain ⟨hp, nx, hr, hp2, nx2, hr2, hys⟩ := h
    simp only [List.nil_append, List.map_cons, List.nodup_cons, List.mem_cons, not_or] at hnd
    have e : nxa = nx2 := by
      rw [ha] at hr2; injection hr2 with e; injection e
    subst e
    refine ⟨hp, nxa, ?_, Rep_congr hys ?_⟩
    · rw [read_set_ne _ (Ne.symm hnd.1.1), read_set_same _ (read_lt hr)]
    · intro b hb
      have hb1 : a ≠ b := fun e => hnd.2.1 (e ▸ hb)
      have hb2 : l.1 ≠ b := fun e => hnd.1.2 (e ▸ hb)
      rw [read_set_ne _ hb1, read_set_ne _ hb2]
  | c :: pre, l, p, h => by
    have hnd := Rep_nodup h
    obtain ⟨hp, nx, hr, hrest⟩ := h
    simp only [List.cons_append, List.map_cons, List.nodup_cons, List.map_append,
      List.mem_append, List.mem_cons, not_or] at hnd
    refine ⟨hp, nx, ?_, Rep_unlink ha pre hrest⟩
    rw [read_set_ne _ (Ne.symm hnd.1.2.2.1), read_set_ne _ (Ne.symm hnd.1.2.1), hr]

/-- Removing a value that occurs unlinks and releases the first node holding it. -/
theorem removeNode_present_spec {m : Mem} {head : Ptr} {xs ys : List (Nat × Int)} {a : Nat}
    {v : Int} (fuel : Nat) (h : Rep m head (xs ++ (a, v) :: ys))
    (hv : v ∉ xs.map Prod.snd) (hf : xs.length + 1 ≤ fuel) :
    ∃ m' head', removeNode fuel m head v = .ok (m', head') ∧ Rep m' head' (xs ++ ys) ∧
      read m' a = none ∧ m'.length = m.length ∧
      (∀ b, b ∉ (xs ++ (a, v) :: ys).map Prod.fst → read m' b = read m b) ∧
      (xs ≠ [] → head' = head) := by
  have hnd := Rep_nodup h
  obtain ⟨nxa, ha⟩ := Rep_read h (c := (a, v)) (by simp)
  rcases List.eq_nil_or_concat xs with rfl | ⟨pre, l, hcs⟩
  · obtain ⟨hp, nx, hr, hys⟩ := h
    subst hp
    simp only [List.nil_append, List.map_cons, List.nodup_cons] at hnd
    refine ⟨m.set a none, nx, ?_, Rep_congr hys ?_, read_set_same _ (read_lt hr), by simp,
      ?_, fun hne => absurd rfl hne⟩
    · simp [removeNode, hr, free]
    · intro b hb
      exact read_set_ne _ (fun e => hnd.1 (e ▸ hb))
    · intro b hb
      exact read_set_ne _ (fun e => hb (by simp [e]))
  · rw [List.concat_eq_append] at hcs
    subst hcs
    have hloop := removeNodeLoop_found (pre ++ [l]) none fuel h hv hf
    rw [List.getLast?_concat] at hloop
    have hun : Rep _ head (pre ++ l :: ys) := Rep_unlink ha pre (by simpa using h)
    obtain ⟨nxl, hl⟩ := Rep_read h (c := l) (by simp)
    have hla : l.1 ≠ a := by
      intro e
      simp only [List.map_append, List.map_cons, List.map_nil, List.append_assoc,
        List.singleton_append] at hnd
      have := (List.nodup_append.1 hnd).2.1
      rw [List.nodup_cons] at this
      exact this.1 (by simp [e])
    obtain ⟨c, nxc, hcm, hc, hrc⟩ := Rep_first h (by simp : pre ++ [l] ≠ [])
    have hcv : c.2 ≠ v := fun e => hv (List.mem_map.2 ⟨c, hcm, e⟩)
    refine ⟨(m.set l.1 (some ⟨l.2, nxa⟩)).set a none, head, ?_, by simpa using hun,
      read_set_same _ (by simpa using read_lt ha), by simp, ?_, fun _ => rfl⟩
    · subst hc
      simp only [removeNode, hrc, hcv, if_false, hloop, ha, storeNext, hl, free,
        read_set_ne _ hla]
    · intro b hb
      have hb1 : a ≠ b := fun e => hb (by simp [e])
      have hb2 : l.1 ≠ b := fun e => hb (by simp [← e])
      rw [read_set_ne _ hb1, read_set_ne _ hb2]

/-! ## reverseList -/

/-- Two memories of the same size with the same live cells are the same. -/
theorem Mem_ext {m m' : Mem} (hl : m'.length = m.length) (hr : ∀ a, read m' a = read m a) :
    m' = m := by
  apply List.ext_getElem? 
  intro a
  by_cases ha : a < m.length
  · have h1 := hr a
    unfold read at h1
    rw [List.getElem?_eq_getElem ha, List.getElem?_eq_getElem (hl ▸ ha)] at h1 ⊢
    cases e1 : m'[a] <;> cases e2 : m[a] <;> simp [e1, e2] at h1 ⊢
    exact h1
  · rw [List.getElem?_eq_none (by omega), List.getElem?_eq_none (by omega)]

/-- The cell of every node of a well-formed list is determined by the list. -/
theorem Rep_read_eq {m m' : Mem} : ∀ {cs : List (Nat × Int)} {p p' : Ptr},
    Rep m p cs → Rep m' p' cs → ∀ a ∈ cs.map Prod.fst, read m' a = read m a
  | [], _, _, _, _, a, ha => by simp at ha
  | c :: rest, _, _, h, h', a, ha => by
    obtain ⟨_, nx, hr, hrest⟩ := h
    obtain ⟨_, nx', hr', hrest'⟩ := h'
    rw [List.map_cons, List.mem_cons] at ha
    rcases ha with rfl | ha
    · rw [hr, hr', Rep_head hrest, Rep_head hrest']
    · exact Rep_read_eq hrest hrest' a ha

/-- Loop invariant of `reverseList`: `curr` heads the part still to visit, `prev` the part
already reversed. -/
theorem reverseListLoop_spec : ∀ (cs done : List (Nat × Int)) {m : Mem}
    {prev curr : Ptr} (fuel : Nat), Rep m curr cs → Rep m prev done →
    (∀ a ∈ cs.map Prod.fst, a ∉ done.map Prod.fst) → cs.length + 1 ≤ fuel →
    ∃ m' p', reverseListLoop fuel m prev curr = .ok (m', p') ∧
      Rep m' p' (cs.reverse ++ done) ∧ m'.length = m.length ∧
      (∀ b, b ∉ cs.map Prod.fst → read m' b = read m b)
  | [], done, m, prev, curr, fuel, hc, hp, _, hf => by
    obtain ⟨k, rfl⟩ : ∃ k, fuel = k + 1 := ⟨fuel - 1, by omega⟩
    rw [Rep_nil] at hc
    subst hc
    exact ⟨m, prev, rfl, by simpa using hp, rfl, fun _ _ => rfl⟩
  | c :: rest, done, m, prev, curr, fuel, hc, hp, hd, hf => by
    obtain ⟨k, rfl⟩ : ∃ k, fuel = k + 1 := ⟨fuel - 1, by omega⟩
    have hnd := Rep_nodup hc
    rw [List.map_cons, List.nodup_cons] at hnd
    obtain ⟨hcur, nx, hr, hrest⟩ := hc
    subst hcur
    have hlt := read_lt hr
    have h1 : Rep (m.set c.1 (some ⟨c.2, prev⟩)) nx rest :=
      Rep_congr hrest (fun b hb => read_set_ne _ (fun e => hnd.1 (e ▸ hb)))
    have h2 : Rep (m.set c.1 (some ⟨c.2, prev⟩)) (some c.1) (c :: done) :=
      ⟨rfl, prev, read_set_same _ hlt,
        Rep_congr hp (fun b hb => read_set_ne _ (fun e => hd c.1 (by simp) (e ▸ hb)))⟩
    have h3 : ∀ a ∈ rest.map Prod.fst, a ∉ (c :: done).map Prod.fst := by
      intro a ha hmem
      rw [List.map_cons, List.mem_cons] at hmem
      rcases hmem with e | hmem
      · exact hnd.1 (e ▸ ha)
      · exact hd a (by rw [List.map_cons]; exact List.mem_cons_of_mem _ ha) hmem
    obtain ⟨m', p', hrun, hrep, hlen, hfr⟩ :=
      reverseListLoop_spec rest (c :: done) k h1 h2 h3 (by simp at hf; omega)
    refine ⟨m', p', ?_, by simpa using hrep, by simpa using hlen, ?_⟩
    · simp only [reverseListLoop, hr, storeNext, hrun]
    · intro b hb
      rw [List.map_cons, List.mem_cons, not_or] at hb
      rw [hfr b hb.2, read_set_ne _ (Ne.symm hb.1)]

theorem reverseList_spec {m : Mem} {head : Ptr} {cs : List (Nat × Int)} (fuel : Nat)
    (h : Rep m head cs) (hf : cs.length + 1 ≤ fuel) :
    ∃ m', reverseList fuel m head = .ok (m', cs.getLast?.map Prod.fst) ∧
      Rep m' (cs.getLast?.map Prod.fst) cs.reverse ∧ m'.length = m.length ∧
      (∀ b, b ∉ cs.map Prod.fst → read m' b = read m b) := by
  obtain ⟨m', p', hrun, hrep, hlen, hfr⟩ :=
    reverseListLoop_spec cs [] fuel h rfl (fun _ _ => by simp) hf
  rw [List.append_nil] at hrep
  have hp : p' = cs.getLast?.map Prod.fst := by
    rw [Rep_head hrep, List.head?_reverse]
  subst hp
  exact ⟨m', hrun, hrep, hlen, hfr⟩

/-- Reversing twice gives back the very same memory and head. -/
theorem reverseList_twice_spec {m : Mem} {head : Ptr} {cs : List (Nat × Int)} (fuel : Nat)
    (h : Rep m head cs) (hf : cs.length + 1 ≤ fuel) :
    ∃ m1 h1, reverseList fuel m head = .ok (m1, h1) ∧
      reverseList fuel m1 h1 = .ok (m, head) := by
  obtain ⟨m1, hrun1, hrep1, hlen1, hfr1⟩ := reverseList_spec fuel h hf
  obtain ⟨m2, hrun2, hrep2, hlen2, hfr2⟩ :=
    reverseList_spec fuel hrep1 (by simpa using hf)
  rw [List.reverse_reverse] at hrep2
  have hh : cs.reverse.getLast?.map Prod.fst = head := by
    rw [List.getLast?_reverse, ← Rep_head h]
  have hm : m2 = m := by
    apply Mem_ext (by rw [hlen2, hlen1])
    intro a
    by_cases ha : a ∈ cs.map Prod.fst
    · exact Rep_read_eq h hrep2 a ha
    · rw [hfr2 a (by simpa using ha), hfr1 a ha]
  rw [hh, hm] at hrun2
  exact ⟨m1, _, hrun1, hrun2⟩

/-- A list holding `v` splits at the first node holding it. -/
theorem exists_first_split (v : Int) : ∀ cs : List (Nat × Int), v ∈ cs.map Prod.snd →
    ∃ xs a ys, cs = xs ++ (a, v) :: ys ∧ v ∉ xs.map Prod.snd
  | [], h => by simp at h
  | c :: cs, h => by
    by_cases hc : c.2 = v
    · exact ⟨[], c.1, cs, by simp [← hc], by simp⟩
    · have hmem : v ∈ cs.map Prod.snd := by
        rw [List.map_cons, List.mem_cons] at h
        exact h.resolve_left (fun e => hc e.symm)
      obtain ⟨xs, a, ys, hsplit, hxs⟩ := exists_first_split v cs hmem
      refine ⟨c :: xs, a, ys, by rw [hsplit]; rfl, ?_⟩
      rw [List.map_cons, List.mem_cons, not_or]
      exact ⟨fun e => hc e.symm, hxs⟩

/-- The expected text always ends with the marker line. -/
theorem render_ends : ∀ vs : List Int, ∃ body, render vs = body ++ "NULL\n"
  | [] => ⟨"", rfl⟩
  | v :: vs => by
    obtain ⟨body, hb⟩ := render_ends vs
    exact ⟨fmtInt v ++ " -> " ++ body, by rw [render, hb]; simp only [String.append_assoc]⟩

/-! ## printReversedList -/

theorem renderItems_append : ∀ xs ys : List Int,
    renderItems (xs ++ ys) = renderItems xs ++ renderItems ys
  | [], ys => by simp [renderItems]
  | x :: xs, ys => by
    rw [List.cons_append, renderItems, renderItems, renderItems_append xs ys]
    simp only [String.append_assoc]

theorem render_eq_items : ∀ vs : List Int, render vs = renderItems vs ++ "NULL\n"
  | [] => by simp [render, renderItems]
  | v :: vs => by
    rw [render, renderItems, render_eq_items vs]
    simp only [String.append_assoc]

/-- The recursion descends to the end of the list and writes the values on the way back. -/
theorem printReversedList_spec {m : Mem} : ∀ {cs : List (Nat × Int)} {p : Ptr} (fuel : Nat)
    (out : String), Rep m p cs → cs.length + 1 ≤ fuel →
    printReversedList m fuel p out = .ok (out ++ renderItems (cs.map Prod.snd).reverse)
  | [], p, fuel, out, h, hf => by
    obtain ⟨k, rfl⟩ : ∃ k, fuel = k + 1 := ⟨fuel - 1, by omega⟩
    rw [Rep_nil] at h
    subst h
    simp [printReversedList, renderItems]
  | c :: rest, p, fuel, out, h, hf => by
    obtain ⟨k, rfl⟩ : ∃ k, fuel = k + 1 := ⟨fuel - 1, by omega⟩
    obtain ⟨hp, nx, hr, hrest⟩ := h
    subst hp
    have ih := printReversedList_spec k out hrest (by simp at hf; omega)
    simp only [printReversedList, hr, ih, List.map_cons, List.reverse_cons, renderItems_append,
      renderItems, String.append_assoc, String.append_empty]

/-! ## Counting the iterations of findIntersection -/

/-- The counters do not change what the loop returns. -/
theorem findIntersectionCount_fst (m : Mem) (head1 head2 : Ptr) :
    ∀ (fuel : Nat) (cur1 cur2 : Ptr),
      findIntersectionLoop m head1 head2 fuel cur1 cur2 =
        match findIntersectionCount m head1 head2 fuel cur1 cur2 with
        | .error e => .error e
        | .ok t => .ok t.1
  | 0, _, _ => rfl
  | fuel + 1, cur1, cur2 => by
    unfold findIntersectionLoop findIntersectionCount
    by_cases h : cur1 = cur2
    · simp [h]
    · simp only [ne_eq, h, not_false_eq_true, if_true]
      cases h1 : advance m head2 cur1 with
      | error e => rfl
      | ok c1 =>
        cases h2 : advance m head1 cur2 with
        | error e => rfl
        | ok c2 =>
          simp only []
          rw [findIntersectionCount_fst m head1 head2 fuel c1 c2]
          cases findIntersectionCount m head1 head2 fuel c1 c2 with
          | error e => rfl
          | ok t => rfl

theorem count_none_cons (x : Ptr) (l : List Ptr) :
    (x :: l).count none = l.count none + cBool (x == none) := by
  cases x <;> simp [cBool, List.count_cons]

/-- The counting loop along two cursor routes: it stops at the first index `n` where they
agree, after `n` iterations, each cursor having been redirected once per `NULL` among its
first `n` positions. -/
theorem findIntersectionCount_run {m : Mem} {head1 head2 : Ptr} {r : Ptr} :
    ∀ (n : Nat) (x y : Ptr) (X Y : List Ptr) (fuel : Nat),
      List.Chain' (fun x y => advance m head2 x = .ok y) (x :: X) →
      List.Chain' (fun x y => advance m head1 x = .ok y) (y :: Y) →
      (∀ t, t < n → (x :: X)[t]? ≠ (y :: Y)[t]?) →
      (x :: X)[n]? = some r → (y :: Y)[n]? = some r → n + 1 ≤ fuel →
      findIntersectionCount m head1 head2 fuel x y =
        .ok (r, n, ((x :: X).take n).count none, ((y :: Y).take n).count none)
  | 0, x, y, X, Y, fuel, _, _, _, hx, hy, hf => by
    obtain ⟨k, rfl⟩ : ∃ k, fuel = k + 1 := ⟨fuel - 1, by omega⟩
    simp at hx hy
    subst hx; subst hy
    simp [findIntersectionCount]
  | n + 1, x, y, X, Y, fuel, hX, hY, hne, hx, hy, hf => by
    obtain ⟨k, rfl⟩ : ∃ k, fuel = k + 1 := ⟨fuel - 1, by omega⟩
    have h0 : x ≠ y := by
      have := hne 0 (Nat.succ_pos _)
      simpa using this
    cases X with
    | nil => simp at hx
    | cons x' X' =>
      cases Y with
      | nil => simp at hy
      | cons y' Y' =>
        rw [List.chain'_cons] at hX hY
        have ih := findIntersectionCount_run n x' y' X' Y' k hX.2 hY.2
          (fun t ht => by simpa using hne (t + 1) (by omega))
          (by simpa using hx) (by simpa using hy) (by omega)
        simp only [findIntersectionCount, ne_eq, h0, not_false_eq_true, if_true, hX.1, hY.1,
          ih, List.take_succ_cons, count_none_cons]

theorem count_none_ptrs (cs : List (Nat × Int)) : (ptrs cs).count none = 0 := by
  rw [List.count_eq_zero]
  simp [ptrs]

/-- Among the first `n` positions of a route, with `n` at most the two lengths plus one,
`NULL` occurs at most once. -/
theorem count_none_route (A B : List (Nat × Int)) (n : Nat)
    (hn : n ≤ A.length + 1 + B.length) : ((route A B).take n).count none ≤ 1 := by
  have e : route A B = (ptrs A ++ none :: ptrs B) ++ [none] := by simp [route]
  have hlen : (ptrs A ++ none :: ptrs B).length = A.length + 1 + B.length := by
    simp [length_ptrs]; omega
  rw [e, List.take_append_of_le_length (by omega)]
  calc ((ptrs A ++ none :: ptrs B).take n).count none
      ≤ (ptrs A ++ none :: ptrs B).count none := (List.take_sublist _ _).count_le _
    _ = 1 := by simp [List.count_append, List.count_cons, count_none_ptrs]

/-- Iterations and redirections of the loop on two well-formed lists `pa ++ s` and `pb ++ s`
whose prefixes share no node. -/
theorem findIntersectionCount_spec {m : Mem} {head1 head2 : Ptr} {pa pb s : List (Nat × Int)}
    (hA : Rep m head1 (pa ++ s)) (hB : Rep m head2 (pb ++ s))
    (hd : ∀ a ∈ pa.map Prod.fst, a ∉ pb.map Prod.fst) (fuel : Nat)
    (hf : pa.length + pb.length + s.length + 2 ≤ fuel) :
    ∃ n k1 k2, findIntersectionCount m head1 head2 fuel head1 head2 =
        .ok (s.head?.map Prod.fst, n, k1, k2) ∧
      n ≤ pa.length + pb.length + s.length + 1 ∧ k1 ≤ 1 ∧ k2 ≤ 1 := by
  obtain ⟨cX, hX⟩ := route_walk hA hB
  obtain ⟨cY, hY⟩ := route_walk hB hA
  have rX := route_shared pa pb s
  have rY := route_shared pb pa s
  obtain ⟨X, eX⟩ : ∃ X, route (pa ++ s) (pb ++ s) = head1 :: X := by
    cases hl : route (pa ++ s) (pb ++ s) with
    | nil => rw [hl] at hX; simp at hX
    | cons x X => rw [hl] at hX; simp at hX; exact ⟨X, by rw [hX]⟩
  obtain ⟨Y, eY⟩ : ∃ Y, route (pb ++ s) (pa ++ s) = head2 :: Y := by
    cases hl : route (pb ++ s) (pa ++ s) with
    | nil => rw [hl] at hY; simp at hY
    | cons y Y => rw [hl] at hY; simp at hY; exact ⟨Y, by rw [hY]⟩
  have hnd := nodup_route (Rep_nodup hA) (Rep_nodup hB) hd
  have hc : ptrs s ++ [none] ≠ [] := by simp
  have key : ∃ n, n ≤ pa.length + pb.length + s.length + 1 ∧
      (∀ t, t < n → (head1 :: X)[t]? ≠ (head2 :: Y)[t]?) ∧
      (head1 :: X)[n]? = some (s.head?.map Prod.fst) ∧
      (head2 :: Y)[n]? = some (s.head?.map Prod.fst) := by
    rw [← eX, ← eY, rX, rY]
    by_cases hlen : pa.length = pb.length
    · have hl : (ptrs pa).length = (ptrs pb).length := by simpa [length_ptrs] using hlen
      obtain ⟨g1, g2, g3⟩ := meet_early (ptrs s ++ [none]) (ptrs s ++ [none]) hnd hc hl
      rw [head_ptrs_none] at g2 g3
      exact ⟨_, by simp [length_ptrs]; omega, g1, g2, g3⟩
    · have hl : (ptrs pa).length ≠ (ptrs pb).length := by simpa [length_ptrs] using hlen
      obtain ⟨g1, g2, g3⟩ := meet_late hnd hc hl
      rw [head_ptrs_none] at g2 g3
      exact ⟨_, by simp [length_ptrs]; omega, g1, g2, g3⟩
  obtain ⟨n, hn, g1, g2, g3⟩ := key
  refine ⟨n, _, _, findIntersectionCount_run n head1 head2 X Y fuel (eX ▸ cX) (eY ▸ cY)
    g1 g2 g3 (by omega), hn, ?_, ?_⟩
  · rw [← eX]
    exact count_none_route _ _ n (by simp; omega)
  · rw [← eY]
    exact count_none_route _ _ n (by simp; omega)

/-- In a well-formed list the next link of a node points to the node that follows it. -/
theorem Rep_next {m : Mem} {p : Ptr} (pre : List (Nat × Int)) {l c : Nat × Int}
    {ys : List (Nat × Int)} (h : Rep m p (pre ++ l :: c :: ys)) :
    read m l.1 = some ⟨l.2, some c.1⟩ := by
  obtain ⟨q, _, nx, hr, hrest⟩ := Rep_suffix pre h
  rw [hr, hrest.1]

/-! ## The claims -/

/-- C1: two well-formed lists `pa ++ c :: s` and `pb ++ c :: s` that share the non-empty
suffix `c :: s` (the very same nodes) and whose prefixes have no node in common, of any
lengths: with enough fuel `findIntersection` returns the address of `c`, the first shared
node. -/
theorem findIntersection_shared_suffix (fuel : Nat) (m : Mem) (head1 head2 : Ptr)
    (pa pb s : List (Nat × Int)) (c : Nat × Int)
    (hA : Rep m head1 (pa ++ c :: s)) (hB : Rep m head2 (pb ++ c :: s))
    (hd : ∀ a ∈ pa.map Prod.fst, a ∉ pb.map Prod.fst)
    (hf : pa.length + pb.length + (s.length + 1) + 2 ≤ fuel) :
    findIntersection fuel m head1 head2 = .ok (some c.1) :=
  findIntersection_spec hA hB hd fuel (by simpa using hf)

theorem findIntersection_shared_suffix_witness :
    findIntersection 11 splicedMem (some 0) (some 6) = .ok (some 2) :=
  findIntersection_shared_suffix 11 splicedMem (some 0) (some 6)
    [(0, 5), (1, 10)] [(6, 1), (7, 2), (8, 3)] [(3, 51), (4, 33), (5, 7)] (2, 15)
    (by simp [Rep, read, splicedMem]) (by simp [Rep, read, splicedMem]) (by decide) (by decide)

/-- C2: two well-formed lists with no node in common, of any lengths and holding any values:
with enough fuel `findIntersection` returns `NULL`.  (The statement does not need the lists
to be non-empty.) -/
theorem findIntersection_disjoint (fuel : Nat) (m : Mem) (head1 head2 : Ptr)
    (A B : List (Nat × Int)) (hA : Rep m head1 A) (hB : Rep m head2 B)
    (hd : ∀ a ∈ A.map Prod.fst, a ∉ B.map Prod.fst)
    (hf : A.length + B.length + 2 ≤ fuel) :
    findIntersection fuel m head1 head2 = .ok none :=
  @findIntersection_spec m head1 head2 A B [] (by simpa using hA) (by simpa using hB)
    hd fuel (by simpa using hf)

theorem findIntersection_disjoint_witness :
    findIntersection 11 demoMem (some 0) (some 6) = .ok none :=
  findIntersection_disjoint 11 demoMem (some 0) (some 6)
    [(0, 5), (1, 10), (2, 15), (3, 51), (4, 33), (5, 7)] [(6, 1), (7, 2), (8, 3)]
    (by simp [Rep, read, demoMem]) (by simp [Rep, read, demoMem]) (by decide) (by decide)

/-- C3: when `head1` or `head2` is `NULL`, `findIntersection` returns `NULL` on every memory
and for every fuel; it does so with fuel `0`, which allows no evaluation of the loop
condition, so the loop is not entered. -/
theorem findIntersection_null_head (fuel : Nat) (m : Mem) (head1 head2 : Ptr)
    (h : head1 = none ∨ head2 = none) :
    findIntersection fuel m head1 head2 = .ok none ∧
      findIntersection 0 m head1 head2 = .ok none := by
  rcases h with rfl | rfl
  · cases head2 <;> simp [findIntersection, cBool]
  · cases head1 <;> simp [findIntersection, cBool]

theorem findIntersection_null_head_witness :
    findIntersection 5 demoMem none (some 6) = .ok none ∧
      findIntersection 0 demoMem none (some 6) = .ok none :=
  findIntersection_null_head 5 demoMem none (some 6) (Or.inl rfl)

/-- C4: on a well-formed list with cells `cs`, `insertEnd` with value `v` leaves the list
`cs` followed by one new node holding `v` (the freshly allocated address `m.length`), and
that node is the head exactly when `cs` is empty; calling `insertEnd` once per element of
`S` in order leaves the values of `cs` followed by `S`, which is also what `printList`
then writes.  Starting from the empty list (`cs = []`, `head = none`) the values are
exactly `S`. -/
theorem insertEnd_appends_in_order (fuel : Nat) (m : Mem) (head : Ptr)
    (cs : List (Nat × Int)) (v : Int) (S : List Int)
    (h : Rep m head cs) (hf : cs.length + S.length ≤ fuel) :
    (∃ m', insertEnd fuel m head v = .ok (m', if cs = [] then some m.length else head) ∧
        Rep m' (if cs = [] then some m.length else head) (cs ++ [(m.length, v)])) ∧
      (∃ m' head' cs', insertAll fuel S (m, head) = .ok (m', head') ∧
        Rep m' head' (cs ++ cs') ∧ cs'.map Prod.snd = S ∧
        printList (fuel + 1) m' head' = .ok (render (cs.map Prod.snd ++ S))) := by
  refine ⟨insertEnd_spec v fuel h (by omega), ?_⟩
  obtain ⟨m', head', cs', hrun, hrep, hS⟩ := insertAll_spec S fuel h hf
  refine ⟨m', head', cs', hrun, hrep, hS, ?_⟩
  have hlen : cs'.length = S.length := by rw [← hS, List.length_map]
  rw [printList_spec (fuel + 1) hrep (by simp; omega), List.map_append, hS]

theorem insertEnd_appends_in_order_witness :
    (∃ m', insertEnd 3 [] none 5 = .ok (m', some 0) ∧ Rep m' (some 0) [(0, 5)]) ∧
      (∃ m' head' cs', insertAll 3 [5, 10, 15] ([], none) = .ok (m', head') ∧
        Rep m' head' cs' ∧ cs'.map Prod.snd = [5, 10, 15] ∧
        printList 4 m' head' = .ok (render [5, 10, 15])) :=
  insertEnd_appends_in_order 3 [] none [] 5 [5, 10, 15] rfl (by decide)

/-- C5: on a well-formed list `xs ++ (a, v) :: ys` in which `v` does not occur in `xs`,
`removeNode` with value `v` leaves the list `xs ++ ys` (the same nodes in the same order,
later nodes holding `v` included), releases the node `a`, touches no cell outside the list,
and keeps the head unless the removed node was the head. -/
theorem removeNode_first_occurrence (fuel : Nat) (m : Mem) (head : Ptr)
    (xs ys : List (Nat × Int)) (a : Nat) (v : Int)
    (h : Rep m head (xs ++ (a, v) :: ys)) (hv : v ∉ xs.map Prod.snd)
    (hf : xs.length + 1 ≤ fuel) :
    ∃ m' head', removeNode fuel m head v = .ok (m', head') ∧ Rep m' head' (xs ++ ys) ∧
      read m' a = none ∧ m'.length = m.length ∧
      (∀ b, b ∉ (xs ++ (a, v) :: ys).map Prod.fst → read m' b = read m b) ∧
      (xs ≠ [] → head' = head) :=
  removeNode_present_spec fuel h hv hf

theorem removeNode_first_occurrence_witness :
    ∃ m' head', removeNode 2 dupMem (some 0) 15 = .ok (m', head') ∧
      Rep m' head' ([(0, 5)] ++ [(2, 10), (3, 15)]) ∧
      read m' 1 = none ∧ m'.length = dupMem.length ∧
      (∀ b, b ∉ ([(0, 5)] ++ (1, 15) :: [(2, 10), (3, 15)]).map Prod.fst →
        read m' b = read dupMem b) ∧
      ([(0, (5 : Int))] ≠ [] → head' = some 0) :=
  removeNode_first_occurrence 2 dupMem (some 0) [(0, 5)] [(2, 10), (3, 15)] 1 15
    (by simp [Rep, read, dupMem]) (by decide) (by decide)

/-- C6: on a well-formed list (possibly empty) in which `v` does not occur, `removeNode`
with value `v` returns the very same memory and the very same head. -/
theorem removeNode_missing_value_unchanged (fuel : Nat) (m : Mem) (head : Ptr)
    (cs : List (Nat × Int)) (v : Int) (h : Rep m head cs) (hv : v ∉ cs.map Prod.snd)
    (hf : cs.length + 1 ≤ fuel) :
    removeNode fuel m head v = .ok (m, head) :=
  removeNode_absent_spec fuel h hv hf

theorem removeNode_missing_value_unchanged_witness :
    removeNode 5 dupMem (some 0) 7 = .ok (dupMem, some 0) :=
  removeNode_missing_value_unchanged 5 dupMem (some 0) [(0, 5), (1, 15), (2, 10), (3, 15)] 7
    (by simp [Rep, read, dupMem]) (by decide) (by decide)

/-- C7: on a well-formed list of length `n` holding `v` exactly once, `removeNode` with
value `v` leaves a well-formed list of length `n - 1` in which `v` does not occur. -/
theorem removeNode_single_occurrence (fuel : Nat) (m : Mem) (head : Ptr)
    (cs : List (Nat × Int)) (v : Int) (h : Rep m head cs)
    (hc : (cs.map Prod.snd).count v = 1) (hf : cs.length + 1 ≤ fuel) :
    ∃ m' head' cs', removeNode fuel m head v = .ok (m', head') ∧ Rep m' head' cs' ∧
      cs'.length + 1 = cs.length ∧ cs'.length = cs.length - 1 ∧ v ∉ cs'.map Prod.snd := by
  have hmem : v ∈ cs.map Prod.snd := List.count_pos_iff.1 (by omega)
  obtain ⟨xs, a, ys, rfl, hxs⟩ := exists_first_split v cs hmem
  obtain ⟨m', head', hrun, hrep, _⟩ :=
    removeNode_present_spec fuel h hxs (by simp at hf; omega)
  have hys : v ∉ ys.map Prod.snd := by
    intro hy
    have h1 := List.count_pos_iff.2 hy
    simp [List.count_append, List.count_cons] at hc
    omega
  have hlen : (xs ++ (a, v) :: ys).length = (xs ++ ys).length + 1 := by
    simp only [List.length_append, List.length_cons]; omega
  refine ⟨m', head', xs ++ ys, hrun, hrep, hlen.symm, by omega, ?_⟩
  rw [List.map_append, List.mem_append]
  exact fun hor => hor.elim hxs hys

theorem removeNode_single_occurrence_witness :
    ∃ m' head' cs', removeNode 5 dupMem (some 0) 10 = .ok (m', head') ∧ Rep m' head' cs' ∧
      cs'.length + 1 = 4 ∧ cs'.length = 4 - 1 ∧ (10 : Int) ∉ cs'.map Prod.snd :=
  removeNode_single_occurrence 5 dupMem (some 0) [(0, 5), (1, 15), (2, 10), (3, 15)] 10
    (by simp [Rep, read, dupMem]) (by decide) (by decide)

/-- C8: on a well-formed list with cells `cs`, `reverseList` leaves the well-formed list
`cs.reverse` (same addresses, same values, opposite order); the new head is the old last
node, the old head now has a `NULL` next link, no cell is allocated, no cell outside the
list changes, and on the empty list the memory is unchanged and the head stays `NULL`. -/
theorem reverseList_reverses_chain (fuel : Nat) (m : Mem) (head : Ptr)
    (cs : List (Nat × Int)) (h : Rep m head cs) (hf : cs.length + 1 ≤ fuel) :
    ∃ m', reverseList fuel m head = .ok (m', cs.getLast?.map Prod.fst) ∧
      Rep m' (cs.getLast?.map Prod.fst) cs.reverse ∧
      m'.length = m.length ∧
      (∀ b, b ∉ cs.map Prod.fst → read m' b = read m b) ∧
      (∀ c, cs.head? = some c → read m' c.1 = some ⟨c.2, none⟩) ∧
      (cs = [] → reverseList fuel m head = .ok (m, none)) := by
  obtain ⟨m', hrun, hrep, hlen, hfr⟩ := reverseList_spec fuel h hf
  refine ⟨m', hrun, hrep, hlen, hfr, ?_, ?_⟩
  · intro c hc
    cases cs with
    | nil => simp at hc
    | cons d rest =>
      simp at hc
      subst hc
      rw [List.reverse_cons] at hrep
      obtain ⟨q, _, nx, hr, hnil⟩ := Rep_suffix rest.reverse hrep
      rw [Rep_nil] at hnil
      rw [hr, hnil]
  · intro hcs
    subst hcs
    rw [hrun, Mem_ext hlen (fun a => hfr a (by simp))]
    rfl

theorem reverseList_reverses_chain_witness :
    ∃ m', reverseList 5 dupMem (some 0) = .ok (m', some 3) ∧
      Rep m' (some 3) [(3, 15), (2, 10), (1, 15), (0, 5)] ∧
      m'.length = dupMem.length ∧
      (∀ b, b ∉ [0, 1, 2, 3] → read m' b = read dupMem b) ∧
      (∀ c, [(0, (5 : Int)), (1, 15), (2, 10), (3, 15)].head? = some c →
        read m' c.1 = some ⟨c.2, none⟩) ∧
      ([(0, (5 : Int)), (1, 15), (2, 10), (3, 15)] = [] →
        reverseList 5 dupMem (some 0) = .ok (dupMem, none)) :=
  reverseList_reverses_chain 5 dupMem (some 0) [(0, 5), (1, 15), (2, 10), (3, 15)]
    (by simp [Rep, read, dupMem]) (by decide)

/-- C9: on a well-formed list, `reverseList` followed by `reverseList` returns the very same
memory (every cell, hence node order, links and values) and the very same head. -/
theorem reverseList_involution (fuel : Nat) (m : Mem) (head : Ptr)
    (cs : List (Nat × Int)) (h : Rep m head cs) (hf : cs.length + 1 ≤ fuel) :
    ∃ m1 h1, reverseList fuel m head = .ok (m1, h1) ∧
      reverseList fuel m1 h1 = .ok (m, head) :=
  reverseList_twice_spec fuel h hf

theorem reverseList_involution_witness :
    ∃ m1 h1, reverseList 5 dupMem (some 0) = .ok (m1, h1) ∧
      reverseList 5 m1 h1 = .ok (dupMem, some 0) :=
  reverseList_involution 5 dupMem (some 0) [(0, 5), (1, 15), (2, 10), (3, 15)]
    (by simp [Rep, read, dupMem]) (by decide)

/-- C10: on a well-formed list with values `v1, ..., vn`, `printList` writes each value in
decimal followed by `" -> "`, head to tail, then `NULL` and a newline, and nothing after
that marker line; on the empty list it writes `NULL` and a newline only. -/
theorem printList_text (fuel : Nat) (m : Mem) (head : Ptr) (cs : List (Nat × Int))
    (h : Rep m head cs) (hf : cs.length + 1 ≤ fuel) :
    printList fuel m head = .ok (render (cs.map Prod.snd)) ∧
      (∃ body, render (cs.map Prod.snd) = body ++ "NULL\n") ∧
      (cs = [] → printList fuel m head = .ok "NULL\n") := by
  have hp := printList_spec fuel h hf
  refine ⟨hp, render_ends _, ?_⟩
  intro hcs
  rw [hp, hcs]
  rfl

theorem printList_text_witness :
    printList 3 [some ⟨5, some 1⟩, some ⟨-10, none⟩] (some 0) = .ok "5 -> -10 -> NULL\n" := by
  have h := (printList_text 3 [some ⟨5, some 1⟩, some ⟨-10, none⟩] (some 0)
    [(0, 5), (1, -10)] (by simp [Rep, read]) (by decide)).1
  exact h

/-- C11: on a well-formed list with values `v1, ..., vn`, `printReversedList` appends to the
output the values in the order `vn, ..., v1`, each in decimal followed by `" -> "`, and no
`NULL` marker; this is the sequence `printList` writes before its marker, reversed; on the
empty list nothing is written. -/
theorem printReversedList_text (fuel : Nat) (m : Mem) (head : Ptr) (cs : List (Nat × Int))
    (out : String) (h : Rep m head cs) (hf : cs.length + 1 ≤ fuel) :
    printReversedList m fuel head out = .ok (out ++ renderItems (cs.map Prod.snd).reverse) ∧
      printList fuel m head = .ok (renderItems (cs.map Prod.snd) ++ "NULL\n") ∧
      (cs = [] → printReversedList m fuel head out = .ok out) := by
  have hp := printReversedList_spec fuel out h hf
  refine ⟨hp, ?_, ?_⟩
  · rw [printList_spec fuel h hf, render_eq_items]
  · intro hcs
    rw [hp, hcs]
    simp [renderItems]

theorem printReversedList_text_witness :
    printReversedList demoMem 7 (some 0) "" = .ok "7 -> 33 -> 51 -> 15 -> 10 -> 5 -> " := by
  have h := (printReversedList_text 7 demoMem (some 0)
    [(0, 5), (1, 10), (2, 15), (3, 51), (4, 33), (5, 7)] ""
    (by simp [Rep, read, demoMem]) (by decide)).1
  exact h

/-- C12: the scenario of `main` in `linked_list.c`, on any starting memory: from the empty
list, `insertEnd` of 5, 10, 15, 51, 33, 7, then `removeNode` of 5, of 15 and of 7 leave a
well-formed list with values 10, 51, 33, and `reverseList` then leaves 33, 51, 10. -/
theorem main_scenario (fuel : Nat) (m : Mem) (hf : 6 ≤ fuel) :
    ∃ s1 s2 s3 s4 s5 cs4 cs5,
      insertAll fuel [5, 10, 15, 51, 33, 7] (m, none) = .ok s1 ∧
      removeNode fuel s1.1 s1.2 5 = .ok s2 ∧
      removeNode fuel s2.1 s2.2 15 = .ok s3 ∧
      removeNode fuel s3.1 s3.2 7 = .ok s4 ∧
      Rep s4.1 s4.2 cs4 ∧ cs4.map Prod.snd = [10, 51, 33] ∧
      reverseList fuel s4.1 s4.2 = .ok s5 ∧
      Rep s5.1 s5.2 cs5 ∧ cs5.map Prod.snd = [33, 51, 10] := by
  obtain ⟨m1, h1, cs, hrun1, hrep1, hS⟩ :=
    @insertAll_spec [5, 10, 15, 51, 33, 7] m none [] fuel (Rep_nil.2 rfl) (by simpa using hf)
  rw [List.nil_append] at hrep1
  rcases cs with _ | ⟨⟨a0, v0⟩, _ | ⟨⟨a1, v1⟩, _ | ⟨⟨a2, v2⟩, _ | ⟨⟨a3, v3⟩, _ | ⟨⟨a4, v4⟩,
    _ | ⟨⟨a5, v5⟩, _ | ⟨c6, rest⟩⟩⟩⟩⟩⟩⟩ <;> simp at hS
  obtain ⟨rfl, rfl, rfl, rfl, rfl, rfl⟩ := hS
  obtain ⟨m2, h2, hrun2, hrep2, _⟩ :=
    @removeNode_present_spec _ _ [] _ _ _ fuel hrep1 (by simp) (by simp; omega)
  obtain ⟨m3, h3, hrun3, hrep3, _⟩ :=
    @removeNode_present_spec _ _ [(a1, 10)] _ _ _ fuel hrep2 (by simp) (by simp; omega)
  obtain ⟨m4, h4, hrun4, hrep4, _⟩ :=
    @removeNode_present_spec _ _ [(a1, 10), (a3, 51), (a4, 33)] _ _ _ fuel hrep3 (by simp)
      (by simp; omega)
  obtain ⟨m5, hrun5, hrep5, _⟩ := reverseList_spec fuel hrep4 (by simp; omega)
  exact ⟨(m1, h1), (m2, h2), (m3, h3), (m4, h4), (m5, _), _, _, hrun1, hrun2, hrun3, hrun4,
    hrep4, rfl, hrun5, hrep5, rfl⟩

theorem main_scenario_witness :
    ∃ s1 s2 s3 s4 s5 cs4 cs5,
      insertAll 6 [5, 10, 15, 51, 33, 7] ([], none) = .ok s1 ∧
      removeNode 6 s1.1 s1.2 5 = .ok s2 ∧
      removeNode 6 s2.1 s2.2 15 = .ok s3 ∧
      removeNode 6 s3.1 s3.2 7 = .ok s4 ∧
      Rep s4.1 s4.2 cs4 ∧ cs4.map Prod.snd = [10, 51, 33] ∧
      reverseList 6 s4.1 s4.2 = .ok s5 ∧
      Rep s5.1 s5.2 cs5 ∧ cs5.map Prod.snd = [33, 51, 10] :=
  main_scenario 6 [] (by decide)

/-- C15: on two non-empty well-formed lists `pa ++ s` and `pb ++ s` whose prefixes share no
node (`s` empty: the lists are node-disjoint; `s` non-empty: they are joined in the shared
suffix `s`), the loop of `findIntersection` stops: with fuel for `2 * (lenA + lenB)`
iterations the function returns, the loop body runs at most `2 * (lenA + lenB)` times, and
each cursor is redirected to the other head at most once. -/
theorem findIntersection_terminates_bounded (fuel : Nat) (m : Mem) (head1 head2 : Ptr)
    (pa pb s : List (Nat × Int)) (hA : Rep m head1 (pa ++ s)) (hB : Rep m head2 (pb ++ s))
    (hd : ∀ a ∈ pa.map Prod.fst, a ∉ pb.map Prod.fst)
    (hneA : pa ++ s ≠ []) (hneB : pb ++ s ≠ [])
    (hf : 2 * ((pa ++ s).length + (pb ++ s).length) + 1 ≤ fuel) :
    ∃ r n k1 k2, findIntersection fuel m head1 head2 = .ok r ∧
      findIntersectionCount m head1 head2 fuel head1 head2 = .ok (r, n, k1, k2) ∧
      n ≤ 2 * ((pa ++ s).length + (pb ++ s).length) ∧ k1 ≤ 1 ∧ k2 ≤ 1 := by
  have hA1 : 0 < (pa ++ s).length := List.length_pos.2 hneA
  have hB1 : 0 < (pb ++ s).length := List.length_pos.2 hneB
  simp only [List.length_append] at hf hA1 hB1 ⊢
  have hfuel : pa.length + pb.length + s.length + 2 ≤ fuel := by omega
  obtain ⟨n, k1, k2, hrun, hn, hk1, hk2⟩ := findIntersectionCount_spec hA hB hd fuel hfuel
  exact ⟨_, n, k1, k2, findIntersection_spec hA hB hd fuel hfuel, hrun, by omega, hk1, hk2⟩

theorem findIntersection_terminates_bounded_witness :
    ∃ r n k1 k2, findIntersection 31 splicedMem (some 0) (some 6) = .ok r ∧
      findIntersectionCount splicedMem (some 0) (some 6) 31 (some 0) (some 6) =
        .ok (r, n, k1, k2) ∧
      n ≤ 2 * (([(0, (5 : Int)), (1, 10)] ++ [(2, 15), (3, 51), (4, 33), (5, 7)]).length +
        ([(6, (1 : Int)), (7, 2), (8, 3)] ++ [(2, 15), (3, 51), (4, 33), (5, 7)]).length) ∧
      k1 ≤ 1 ∧ k2 ≤ 1 :=
  findIntersection_terminates_bounded 31 splicedMem (some 0) (some 6)
    [(0, 5), (1, 10)] [(6, 1), (7, 2), (8, 3)] [(2, 15), (3, 51), (4, 33), (5, 7)]
    (by simp [Rep, read, splicedMem]) (by simp [Rep, read, splicedMem]) (by decide)
    (by decide) (by decide) (by decide)

/-- C16: a well-formed list (its chain reaches `NULL` and visits no node twice) is still
well-formed after `insertEnd`, after `removeNode` and after `reverseList`, for every value
argument; each call returns. -/
theorem acyclicity_preserved (fuel : Nat) (m : Mem) (head : Ptr) (cs : List (Nat × Int))
    (v : Int) (h : Rep m head cs) (hf : cs.length + 1 ≤ fuel) :
    (∃ m' head' cs', insertEnd fuel m head v = .ok (m', head') ∧ Rep m' head' cs' ∧
        (cs'.map Prod.fst).Nodup) ∧
      (∃ m' head' cs', removeNode fuel m head v = .ok (m', head') ∧ Rep m' head' cs' ∧
        (cs'.map Prod.fst).Nodup) ∧
      (∃ m' head' cs', reverseList fuel m head = .ok (m', head') ∧ Rep m' head' cs' ∧
        (cs'.map Prod.fst).Nodup) := by
  refine ⟨?_, ?_, ?_⟩
  · obtain ⟨m', hrun, hrep⟩ := insertEnd_spec v fuel h (by omega)
    exact ⟨m', _, _, hrun, hrep, Rep_nodup hrep⟩
  · by_cases hv : v ∈ cs.map Prod.snd
    · obtain ⟨xs, a, ys, rfl, hxs⟩ := exists_first_split v cs hv
      obtain ⟨m', head', hrun, hrep, _⟩ :=
        removeNode_present_spec fuel h hxs (by simp at hf; omega)
      exact ⟨m', head', _, hrun, hrep, Rep_nodup hrep⟩
    · exact ⟨m, head, cs, removeNode_absent_spec fuel h hv hf, h, Rep_nodup h⟩
  · obtain ⟨m', hrun, hrep, _⟩ := reverseList_spec fuel h hf
    exact ⟨m', _, _, hrun, hrep, Rep_nodup hrep⟩

theorem acyclicity_preserved_witness :
    (∃ m' head' cs', insertEnd 5 dupMem (some 0) 15 = .ok (m', head') ∧ Rep m' head' cs' ∧
        (cs'.map Prod.fst).Nodup) ∧
      (∃ m' head' cs', removeNode 5 dupMem (some 0) 15 = .ok (m', head') ∧ Rep m' head' cs' ∧
        (cs'.map Prod.fst).Nodup) ∧
      (∃ m' head' cs', reverseList 5 dupMem (some 0) = .ok (m', head') ∧ Rep m' head' cs' ∧
        (cs'.map Prod.fst).Nodup) :=
  acyclicity_preserved 5 dupMem (some 0) [(0, 5), (1, 15), (2, 10), (3, 15)] 15
    (by simp [Rep, read, dupMem]) (by decide)

/-- C17: with a `NULL` head every operation returns without a fault, on every memory:
`removeNode` and `reverseList` leave memory and head unchanged, `printList` writes the
marker line only, `printReversedList` writes nothing, `findIntersection` returns `NULL`
whatever the other head is, and `insertEnd` leaves a well-formed one-node list. -/
theorem empty_list_operations (fuel : Nat) (m : Mem) (v : Int) (out : String) (other : Ptr)
    (hf : 1 ≤ fuel) :
    removeNode fuel m none v = .ok (m, none) ∧
      reverseList fuel m none = .ok (m, none) ∧
      printList fuel m none = .ok "NULL\n" ∧
      printReversedList m fuel none out = .ok out ∧
      findIntersection fuel m none other = .ok none ∧
      findIntersection fuel m other none = .ok none ∧
      (∃ m', insertEnd fuel m none v = .ok (m', some m.length) ∧
        Rep m' (some m.length) [(m.length, v)]) := by
  obtain ⟨k, rfl⟩ : ∃ k, fuel = k + 1 := ⟨fuel - 1, by omega⟩
  refine ⟨rfl, rfl, rfl, rfl, ?_, ?_, ?_⟩
  · cases other <;> simp [findIntersection, cBool]
  · cases other <;> simp [findIntersection, cBool]
  · have h := insertEnd_spec v (k + 1) (Rep_nil.2 rfl : Rep m none []) (by simp)
    simpa using h

theorem empty_list_operations_witness :
    removeNode 1 [] none 5 = .ok ([], none) ∧
      reverseList 1 [] none = .ok ([], none) ∧
      printList 1 [] none = .ok "NULL\n" ∧
      printReversedList [] 1 none "" = .ok "" ∧
      findIntersection 1 [] none none = .ok none ∧
      findIntersection 1 [] none none = .ok none ∧
      (∃ m', insertEnd 1 [] none 5 = .ok (m', some 0) ∧ Rep m' (some 0) [(0, 5)]) :=
  empty_list_operations 1 [] 5 "" none (by decide)

/-- C18: on a well-formed list, for every value, `removeNode` returns without a fault (the
model faults if `prev` is `NULL` at `prev->next = curr->next`); and when the head does not
hold the value, whenever the search loop stops at a node `k`, `prev` is a node of the list
whose next link is `k`. -/
theorem removeNode_prev_is_predecessor (fuel : Nat) (m : Mem) (head : Ptr)
    (cs : List (Nat × Int)) (v : Int) (h : Rep m head cs) (hf : cs.length + 1 ≤ fuel) :
    (∃ r, removeNode fuel m head v = .ok r) ∧
      ∀ c rest, cs = c :: rest → c.2 ≠ v → ∀ prev k,
        removeNodeLoop m v fuel none head = .ok (prev, some k) →
        ∃ p ∈ cs, prev = some p.1 ∧ read m p.1 = some ⟨p.2, some k⟩ := by
  constructor
  · by_cases hv : v ∈ cs.map Prod.snd
    · obtain ⟨xs, a, ys, rfl, hxs⟩ := exists_first_split v cs hv
      obtain ⟨m', head', hrun, _⟩ :=
        removeNode_present_spec fuel h hxs (by simp at hf; omega)
      exact ⟨_, hrun⟩
    · exact ⟨_, removeNode_absent_spec fuel h hv hf⟩
  · intro c rest hcs hc prev k hloop
    by_cases hv : v ∈ cs.map Prod.snd
    · obtain ⟨xs, a, ys, hsplit, hxs⟩ := exists_first_split v cs hv
      rcases List.eq_nil_or_concat xs with hnil | ⟨pre, l, hcat⟩
      · subst hnil
        rw [hcs] at hsplit
        simp at hsplit
        exact absurd (congrArg Prod.snd hsplit.1) hc
      · rw [List.concat_eq_append] at hcat
        subst hcat
        subst hsplit
        have hfound := removeNodeLoop_found (pre ++ [l]) none fuel h hxs
          (by simp at hf ⊢; omega)
        rw [List.getLast?_concat, hloop] at hfound
        injection hfound with e
        injection e with e1 e2
        injection e2 with e2
        subst e1; subst e2
        have hnext : read m l.1 = some ⟨l.2, some k⟩ :=
          Rep_next pre (by simpa using h)
        exact ⟨l, by simp, rfl, hnext⟩
    · obtain ⟨prev', habs⟩ := removeNodeLoop_absent cs none fuel h hv hf
      rw [hloop] at habs
      injection habs with e
      injection e with _ e2
      exact absurd e2 (by simp)

theorem removeNode_prev_is_predecessor_witness :
    (∃ r, removeNode 5 dupMem (some 0) 10 = .ok r) ∧
      ∀ c rest, [(0, (5 : Int)), (1, 15), (2, 10), (3, 15)] = c :: rest → c.2 ≠ 10 →
        ∀ prev k, removeNodeLoop dupMem 10 5 none (some 0) = .ok (prev, some k) →
        ∃ p ∈ [(0, (5 : Int)), (1, 15), (2, 10), (3, 15)],
          prev = some p.1 ∧ read dupMem p.1 = some ⟨p.2, some k⟩ :=
  removeNode_prev_is_predecessor 5 dupMem (some 0) [(0, 5), (1, 15), (2, 10), (3, 15)] 10
    (by simp [Rep, read, dupMem]) (by decide)

/-- C19: on two well-formed lists `pa ++ s` and `pb ++ s` whose prefixes share no node
(node-disjoint when `s` is empty, joined in `s` otherwise; either list may be empty),
`findIntersection` returns the same result for both orders of its arguments. -/
theorem findIntersection_symmetric (fuel : Nat) (m : Mem) (head1 head2 : Ptr)
    (pa pb s : List (Nat × Int)) (hA : Rep m head1 (pa ++ s)) (hB : Rep m head2 (pb ++ s))
    (hd : ∀ a ∈ pa.map Prod.fst, a ∉ pb.map Prod.fst)
    (hf : pa.length + pb.length + s.length + 2 ≤ fuel) :
    ∃ r, findIntersection fuel m head1 head2 = .ok r ∧
      findIntersection fuel m head2 head1 = .ok r :=
  ⟨_, findIntersection_spec hA hB hd fuel hf,
    findIntersection_spec hB hA (fun a ha ha' => hd a ha' ha) fuel (by omega)⟩

theorem findIntersection_symmetric_witness :
    ∃ r, findIntersection 11 splicedMem (some 0) (some 6) = .ok r ∧
      findIntersection 11 splicedMem (some 6) (some 0) = .ok r :=
  findIntersection_symmetric 11 splicedMem (some 0) (some 6)
    [(0, 5), (1, 10)] [(6, 1), (7, 2), (8, 3)] [(2, 15), (3, 51), (4, 33), (5, 7)]
    (by simp [Rep, read, splicedMem]) (by simp [Rep, read, splicedMem]) (by decide)
    (by decide)

end LinkedList

/-! ## The 32-bit byte swap -/

namespace Endian32

/-- Masking with a byte mask placed at bit `n` keeps the byte at bit `n`. -/
theorem and_byte_mask (x n : Nat) : x &&& (255 * 2 ^ n) = (x / 2 ^ n % 256) * 2 ^ n := by
  apply Nat.eq_of_testBit_eq
  intro i
  have h255 : (255 : Nat) = 2 ^ 8 - 1 := by norm_num
  have h256 : (256 : Nat) = 2 ^ 8 := by norm_num
  rw [Nat.testBit_and, ← Nat.shiftLeft_eq, ← Nat.shiftLeft_eq, Nat.testBit_shiftLeft,
    Nat.testBit_shiftLeft, h255, h256, Nat.testBit_two_pow_sub_one, Nat.testBit_mod_two_pow,
    ← Nat.shiftRight_eq_div_pow, Nat.testBit_shiftRight]
  by_cases hi : n ≤ i
  · have : n + (i - n) = i := by omega
    simp [hi, this, Bool.and_comm]
  · simp [hi]

/-- The four masked terms in arithmetic form. -/
theorem swapEndian_eq (value : Nat) (h : value < 2 ^ 32) :
    swapEndian value =
      (value % 256) * 2 ^ 24 + (value / 2 ^ 8 % 256) * 2 ^ 16 +
        (value / 2 ^ 16 % 256) * 2 ^ 8 + value / 2 ^ 24 := by
  have e1 : (value >>> 24) &&& 0x000000FF = value / 2 ^ 24 := by
    have := and_byte_mask (value >>> 24) 0
    simp only [Nat.pow_zero, Nat.mul_one, Nat.div_one] at this
    rw [this, Nat.shiftRight_eq_div_pow]
    omega
  have e2 : (value >>> 8) &&& 0x0000FF00 = (value / 2 ^ 16 % 256) * 2 ^ 8 := by
    have := and_byte_mask (value >>> 8) 8
    rw [show (0x0000FF00 : Nat) = 255 * 2 ^ 8 by norm_num, this, Nat.shiftRight_eq_div_pow]
    congr 1
    omega
  have e3 : ((value <<< 8) % 2 ^ 32) &&& 0x00FF0000 = (value / 2 ^ 8 % 256) * 2 ^ 16 := by
    have := and_byte_mask ((value <<< 8) % 2 ^ 32) 16
    rw [show (0x00FF0000 : Nat) = 255 * 2 ^ 16 by norm_num, this, Nat.shiftLeft_eq]
    congr 1
    omega
  have e4 : ((value <<< 24) % 2 ^ 32) &&& 0xFF000000 = (value % 256) * 2 ^ 24 := by
    have := and_byte_mask ((value <<< 24) % 2 ^ 32) 24
    rw [show (0xFF000000 : Nat) = 255 * 2 ^ 24 by norm_num, this, Nat.shiftLeft_eq]
    congr 1
    omega
  unfold swapEndian
  rw [e1, e2, e3, e4]
  have o1 : value / 2 ^ 24 ||| (value / 2 ^ 16 % 256) * 2 ^ 8 =
      (value / 2 ^ 16 % 256) * 2 ^ 8 + value / 2 ^ 24 := by
    rw [Nat.lor_comm, Nat.mul_comm, Nat.mul_add_lt_is_or (by omega)]
  have o2 : (value / 2 ^ 16 % 256) * 2 ^ 8 + value / 2 ^ 24 |||
      (value / 2 ^ 8 % 256) * 2 ^ 16 =
      (value / 2 ^ 8 % 256) * 2 ^ 16 + ((value / 2 ^ 16 % 256) * 2 ^ 8 + value / 2 ^ 24) := by
    rw [Nat.lor_comm, Nat.mul_comm (value / 2 ^ 8 % 256), Nat.mul_add_lt_is_or (by omega)]
  have o3 : (value / 2 ^ 8 % 256) * 2 ^ 16 +
      ((value / 2 ^ 16 % 256) * 2 ^ 8 + value / 2 ^ 24) ||| (value % 256) * 2 ^ 24 =
      (value % 256) * 2 ^ 24 + ((value / 2 ^ 8 % 256) * 2 ^ 16 +
        ((value / 2 ^ 16 % 256) * 2 ^ 8 + value / 2 ^ 24)) := by
    rw [Nat.lor_comm, Nat.mul_comm (value % 256), Nat.mul_add_lt_is_or (by omega)]
  rw [o1, o2, o3]
  omega

theorem swapEndian_of_bytes (b3 b2 b1 b0 : Nat) (h3 : b3 < 256) (h2 : b2 < 256)
    (h1 : b1 < 256) (h0 : b0 < 256) :
    swapEndian (b3 * 2 ^ 24 + b2 * 2 ^ 16 + b1 * 2 ^ 8 + b0) =
      b0 * 2 ^ 24 + b1 * 2 ^ 16 + b2 * 2 ^ 8 + b3 := by
  rw [swapEndian_eq _ (by omega)]
  omega

/-- C13: for every `uint32_t` value whose bytes from most to least significant are
`b3 b2 b1 b0`, the 32-bit `swapEndian` returns the `uint32_t` whose bytes from most to least
significant are `b0 b1 b2 b3`. -/
theorem swapEndian_reverses_bytes (b3 b2 b1 b0 : Nat) (h3 : b3 < 256) (h2 : b2 < 256)
    (h1 : b1 < 256) (h0 : b0 < 256) :
    swapEndian (b3 * 2 ^ 24 + b2 * 2 ^ 16 + b1 * 2 ^ 8 + b0) =
      b0 * 2 ^ 24 + b1 * 2 ^ 16 + b2 * 2 ^ 8 + b3 ∧
    b0 * 2 ^ 24 + b1 * 2 ^ 16 + b2 * 2 ^ 8 + b3 < 2 ^ 32 := by
  exact ⟨swapEndian_of_bytes b3 b2 b1 b0 h3 h2 h1 h0, by omega⟩

theorem swapEndian_reverses_bytes_witness : swapEndian 0x12345678 = 0x78563412 :=
  (swapEndian_reverses_bytes 0x12 0x34 0x56 0x78 (by decide) (by decide) (by decide)
    (by decide)).1

/-- C20: the 32-bit `swapEndian` applied twice to a `uint32_t` value gives the value back. -/
theorem swapEndian_involution (value : Nat) (h : value < 2 ^ 32) :
    swapEndian (swapEndian value) = value := by
  have hv : value = (value / 2 ^ 24) * 2 ^ 24 + (value / 2 ^ 16 % 256) * 2 ^ 16 +
      (value / 2 ^ 8 % 256) * 2 ^ 8 + value % 256 := by omega
  rw [hv, swapEndian_of_bytes _ _ _ _ (by omega) (by omega) (by omega) (by omega),
    swapEndian_of_bytes _ _ _ _ (by omega) (by omega) (by omega) (by omega)]

theorem swapEndian_involution_witness : swapEndian (swapEndian 0x12345678) = 0x12345678 :=
  swapEndian_involution 0x12345678 (by decide)

end Endian32

/-! ## The 16-bit byte swap -/

namespace ShortEndian

/-- Within one byte, clearing the bits of `b` in `255` gives `255 - b`. -/
theorem byte_complement (b : Nat) (hb : b < 256) (i : Nat) :
    (Nat.testBit 255 i && !Nat.testBit b i) = Nat.testBit (255 - b) i := by
  have h1 : (255 : Nat) = 2 ^ 8 - 1 := by norm_num
  have h2 : 255 - b = 2 ^ 8 - (b + 1) := by omega
  rw [h2, Nat.testBit_two_pow_sub_succ (by omega : b < 2 ^ 8), h1,
    Nat.testBit_two_pow_sub_one]

theorem ldiff_low_byte (n b : Nat) (hb : b < 256) :
    Nat.ldiff (2 ^ 8 * n + 255) b = 2 ^ 8 * n + (255 - b) := by
  apply Nat.eq_of_testBit_eq
  intro i
  rw [Nat.testBit_ldiff, Nat.testBit_mul_pow_two_add n (by norm_num : 255 < 2 ^ 8),
    Nat.testBit_mul_pow_two_add n (by omega : 255 - b < 2 ^ 8)]
  by_cases hi : i < 8
  · simp only [hi, if_true]
    exact byte_complement b hb i
  · have hbi : Nat.testBit b i = false :=
      Nat.testBit_lt_two_pow (Nat.lt_of_lt_of_le hb
        (by simpa using Nat.pow_le_pow_right (by norm_num : 0 < 2) (Nat.le_of_not_lt hi)))
    simp [hi, hbi]

theorem ldiff_byte (a : Nat) : Nat.ldiff 255 a = 255 - a % 256 := by
  apply Nat.eq_of_testBit_eq
  intro i
  rw [Nat.testBit_ldiff]
  by_cases hi : i < 8
  · have hmod : Nat.testBit a i = Nat.testBit (a % 2 ^ 8) i := by
      rw [Nat.testBit_mod_two_pow]; simp [hi]
    rw [hmod]
    exact byte_complement (a % 2 ^ 8) (Nat.mod_lt _ (by norm_num)) i
  · have hle : 2 ^ 8 ≤ 2 ^ i := Nat.pow_le_pow_right (by norm_num) (Nat.le_of_not_lt hi)
    rw [Nat.testBit_lt_two_pow (Nat.lt_of_lt_of_le (by norm_num : 255 < 2 ^ 8) hle),
      Nat.testBit_lt_two_pow (Nat.lt_of_lt_of_le (by omega : 255 - a % 256 < 2 ^ 8) hle)]
    rfl

/-- The value computed before the conversion to `short`, in arithmetic form. -/
theorem lor_shift_eq (value : Int) :
    Int.lor (value <<< (8 : Int)) (Int.land (value >>> (8 : Int)) 0x00FF) =
      value * 256 + value / 256 % 256 := by
  cases value with
  | ofNat n =>
    have h1 : (Int.ofNat n) <<< (8 : Int) = ((n <<< 8 : Nat) : Int) :=
      Int.shiftLeft_coe_nat n 8
    have h2 : (Int.ofNat n) >>> (8 : Int) = ((n >>> 8 : Nat) : Int) :=
      Int.shiftRight_coe_nat n 8
    rw [h1, h2]
    show ((n <<< 8 ||| (n >>> 8 &&& 255) : Nat) : Int) = _
    have h3 : n >>> 8 &&& 255 = n / 256 % 256 := by
      rw [show (255 : Nat) = 2 ^ 8 - 1 by norm_num, Nat.and_pow_two_sub_one_eq_mod,
        Nat.shiftRight_eq_div_pow]
    have h4 : n <<< 8 ||| n / 256 % 256 = 2 ^ 8 * n + n / 256 % 256 := by
      rw [Nat.shiftLeft_eq, Nat.mul_comm, Nat.mul_add_lt_is_or (by omega)]
    rw [h3, h4]
    simp only [Int.ofNat_eq_coe]
    omega
  | negSucc n =>
    have h1 : (Int.negSucc n) <<< (8 : Int) = Int.negSucc (Nat.shiftLeft' true n 8) :=
      Int.shiftLeft_negSucc n 8
    have h2 : (Int.negSucc n) >>> (8 : Int) = Int.negSucc (n >>> 8) :=
      Int.shiftRight_negSucc n 8
    have h3 : Nat.shiftLeft' true n 8 = 2 ^ 8 * n + 255 := by
      have := Nat.shiftLeft'_tt_eq_mul_pow n 8
      omega
    rw [h1, h2, h3]
    show Int.negSucc (Nat.ldiff (2 ^ 8 * n + 255) (Nat.ldiff 255 (n >>> 8))) = _
    rw [ldiff_byte, ldiff_low_byte _ _ (by omega), Nat.shiftRight_eq_div_pow]
    simp only [Int.negSucc_eq]
    omega

/-- C14: for every `short` value, negative ones included, the 16-bit `swapEndian` returns a
`short` whose high byte is the low byte of the argument and whose low byte is the high byte
of the argument; bytes are those of the 16-bit two's-complement pattern, `x % 65536`.
The left shift of the promoted operand stays in the range of `int`. -/
theorem swapEndian_exchanges_bytes (value : Int) (hlo : -32768 ≤ value)
    (hhi : value < 32768) :
    -32768 ≤ swapEndian value ∧ swapEndian value < 32768 ∧
      swapEndian value % 65536 / 256 = value % 256 ∧
      swapEndian value % 256 = value % 65536 / 256 ∧
      -2147483648 ≤ value <<< (8 : Int) ∧ value <<< (8 : Int) < 2147483648 := by
  have hsh : value <<< (8 : Int) = value * 256 := by
    have := Int.shiftLeft_eq_mul_pow value 8
    norm_num at this
    exact this
  have hb : value % 65536 / 256 = value / 256 % 256 := by omega
  have hx : (value * 256 + value / 256 % 256) % 65536 =
      value % 256 * 256 + value / 256 % 256 := by omega
  have hr : ∀ x : Int, ((x + 2 ^ 15) % 2 ^ 16 - 2 ^ 15) % 65536 = x % 65536 := by
    intro x; omega
  have hm : ∀ x : Int, ((x + 2 ^ 15) % 2 ^ 16 - 2 ^ 15) % 256 = x % 65536 % 256 := by
    intro x; omega
  have hrange : ∀ x : Int, -32768 ≤ (x + 2 ^ 15) % 2 ^ 16 - 2 ^ 15 ∧
      (x + 2 ^ 15) % 2 ^ 16 - 2 ^ 15 < 32768 := by
    intro x; omega
  have hbytes : ∀ lo hi : Int, 0 ≤ hi → hi < 256 →
      (lo * 256 + hi) / 256 = lo ∧ (lo * 256 + hi) % 256 = hi := by
    intro lo hi h1 h2; omega
  have hhi0 : 0 ≤ value / 256 % 256 ∧ value / 256 % 256 < 256 := by omega
  rw [hsh]
  unfold swapEndian toShort
  rw [lor_shift_eq, hr, hm, hx, hb]
  exact ⟨(hrange _).1, (hrange _).2, (hbytes _ _ hhi0.1 hhi0.2).1,
    (hbytes _ _ hhi0.1 hhi0.2).2, by omega, by omega⟩

theorem swapEndian_exchanges_bytes_witness :
    swapEndian 0x1234 = 0x3412 ∧ swapEndian (-204) = 13567 := by
  obtain ⟨a1, a2, a3, a4, _⟩ := swapEndian_exchanges_bytes 0x1234 (by decide) (by decide)
  obtain ⟨b1, b2, b3, b4, _⟩ := swapEndian_exchanges_bytes (-204) (by decide) (by decide)
  constructor <;> omega

end ShortEndian
